import Mathlib

/-!
# validate-project.js : a shallow embedding

The script `src/validate-project.js` audits a project made of a UI test suite
and an API test suite.  It records boolean checks into four category
tallies, scans the `ui-tests` tree with three textual detectors and derives a
verdict and an exit code from the number of failed checks.

The embedding follows the source function by function.  JavaScript strings
are lists of characters where the script computes on them (file names, file
contents, command output); messages handed to `check` are `String`s.  The
console output of `log` is advisory and is not part of the state; the values
the summary reports (totals, success rate, verdict, exit code) are returned
by `generateSummary`.
-/

namespace ValidateProject

/-! ## JavaScript string primitives -/

/-- Text the script computes on, as a list of characters. -/
abbrev Str := List Char

/-- The characters removed by `String.prototype.trim` and matched by `\s` in
a regular expression: ECMAScript WhiteSpace and LineTerminator. -/
def isWhiteSpace (c : Char) : Bool :=
  let n := c.toNat
  n == 0x09 || n == 0x0A || n == 0x0B || n == 0x0C || n == 0x0D || n == 0x20 ||
  n == 0xA0 || n == 0x1680 || (0x2000 ≤ n && n ≤ 0x200A) || n == 0x2028 ||
  n == 0x2029 || n == 0x202F || n == 0x205F || n == 0x3000 || n == 0xFEFF

/-- `s.trimStart()`. -/
def trimStart (s : Str) : Str := s.dropWhile isWhiteSpace

/-- `s.trimEnd()`. -/
def trimEnd (s : Str) : Str := (s.reverse.dropWhile isWhiteSpace).reverse

/-- `s.trim()`. -/
def trim (s : Str) : Str := trimEnd (trimStart s)

/-- `s.startsWith(p)`. -/
def startsWith : (s p : Str) → Bool
  | _, [] => true
  | [], _ :: _ => false
  | c :: s, d :: p => c == d && startsWith s p

/-- `s.endsWith(p)`. -/
def endsWith (s p : Str) : Bool := startsWith s.reverse p.reverse

/-- `s.includes(p)`: `p` occurs in `s` at some position. -/
def includes : (s p : Str) → Bool
  | [], p => startsWith [] p
  | c :: s, p => startsWith (c :: s) p || includes s p

/-- `s.split(sep)` for a one-character separator; the result is never empty. -/
def split (sep : Char) : Str → List Str
  | [] => [[]]
  | c :: s =>
    if c = sep then [] :: split sep s
    else match split sep s with
      | [] => [[c]]
      | l :: ls => (c :: l) :: ls

/-- Decimal rendering of a natural number inside a template literal. -/
def natToStr (n : Nat) : Str := Nat.toDigits 10 n

/-! ## Validation results tracking (source lines 25-43) -/

/-- One entry of `results`: `passed`, `failed` and `issues`. -/
structure CategoryTally where
  passed : Nat
  failed : Nat
  issues : List String
  deriving DecidableEq, Repr

/-- The four keys of `results`. -/
inductive Category where
  | preflight
  | tests
  | quality
  | reports
  deriving DecidableEq, Repr

/-- The object `results`, its keys in insertion order. -/
structure Results where
  preflight : CategoryTally
  tests : CategoryTally
  quality : CategoryTally
  reports : CategoryTally
  deriving DecidableEq, Repr

/-- The value `results` is initialised with. -/
def initialResults : Results :=
  { preflight := { passed := 0, failed := 0, issues := [] }
    tests := { passed := 0, failed := 0, issues := [] }
    quality := { passed := 0, failed := 0, issues := [] }
    reports := { passed := 0, failed := 0, issues := [] } }

/-- The lookup `results[category]`. -/
def Results.get (r : Results) : Category → CategoryTally
  | .preflight => r.preflight
  | .tests => r.tests
  | .quality => r.quality
  | .reports => r.reports

/-- Replace the tally stored under `category`. -/
def Results.set (r : Results) (category : Category) (t : CategoryTally) : Results :=
  match category with
  | .preflight => { r with preflight := t }
  | .tests => { r with tests := t }
  | .quality => { r with quality := t }
  | .reports => { r with reports := t }

/-- The function `check(condition, message, category)`: a true condition
increments `passed`; a false one increments `failed` and pushes `message`
onto `issues`. -/
def check (condition : Bool) (message : String) (category : Category) (r : Results) :
    Results :=
  let t := r.get category
  if condition then
    r.set category { t with passed := t.passed + 1 }
  else
    r.set category { t with failed := t.failed + 1, issues := t.issues ++ [message] }

/-- `Object.values(results)`, in insertion order. -/
def Results.values (r : Results) : List CategoryTally :=
  [r.preflight, r.tests, r.quality, r.reports]

/-! ## Summary and verdict (source lines 296-343) -/

/-- `Object.values(results).reduce((sum, category) => sum + category.passed, 0)`. -/
def totalPassed (r : Results) : Nat :=
  r.values.foldl (fun sum category => sum + category.passed) 0

/-- `Object.values(results).reduce((sum, category) => sum + category.failed, 0)`. -/
def totalFailed (r : Results) : Nat :=
  r.values.foldl (fun sum category => sum + category.failed) 0

/-- The value of `((totalPassed / totalChecks) * 100).toFixed(1)`.  Dividing
zero by zero gives `NaN`, a positive number by zero gives `Infinity`, and
`toFixed` renders these as the texts `NaN` and `Infinity`; otherwise the
text is the one-decimal rendering of the double `totalPassed / totalChecks *
100`, kept symbolic as `fixed1 totalPassed totalChecks`. -/
inductive SuccessRate where
  | NaN
  | Infinity
  | fixed1 (totalPassed totalChecks : Nat)
  deriving DecidableEq, Repr

/-- The expression `((totalPassed / totalChecks) * 100).toFixed(1)`. -/
def successRateOf (totalPassed totalChecks : Nat) : SuccessRate :=
  if totalChecks = 0 then
    if totalPassed = 0 then SuccessRate.NaN else SuccessRate.Infinity
  else SuccessRate.fixed1 totalPassed totalChecks

/-- The three values of `deliveryStatus`. -/
inductive Verdict where
  | ready
  | minorFixes
  | majorIssues
  deriving DecidableEq, Repr

/-- The text assigned to `deliveryStatus`. -/
def Verdict.text : Verdict → String
  | .ready => "✅ READY FOR DELIVERY"
  | .minorFixes => "⚠️ MINOR FIXES NEEDED"
  | .majorIssues => "❌ MAJOR ISSUES DETECTED"

/-- What `generateSummary` computes before it ends the process. -/
structure Summary where
  totalPassed : Nat
  totalFailed : Nat
  totalChecks : Nat
  successRate : SuccessRate
  deliveryStatus : Verdict
  exitCode : Nat
  deriving DecidableEq, Repr

/-- The function `generateSummary`: totals, success rate, the verdict tiers
evaluated in order, and the argument of `process.exit`. -/
def generateSummary (r : Results) : Summary :=
  let totalPassed := totalPassed r
  let totalFailed := totalFailed r
  let totalChecks := totalPassed + totalFailed
  let successRate := successRateOf totalPassed totalChecks
  let deliveryStatus :=
    if totalFailed = 0 then Verdict.ready
    else if totalFailed ≤ 2 then Verdict.minorFixes
    else Verdict.majorIssues
  { totalPassed := totalPassed
    totalFailed := totalFailed
    totalChecks := totalChecks
    successRate := successRate
    deliveryStatus := deliveryStatus
    exitCode := if totalFailed = 0 then 0 else 1 }

/-! ## The directory tree read by the quality scan -/

/-- An entry returned by `fs.readdirSync(dir, { withFileTypes: true })`,
together with what the script can learn from it.  `file` is an entry whose
`isDirectory()` is false; `content` is the text `fs.readFileSync` returns,
or `none` when the read throws.  `dir` is an entry whose `isDirectory()` is
true; `entries` is the listing `fs.readdirSync` returns for it, or `none`
when listing it throws. -/
inductive Node where
  | file (name : Str) (content : Option Str)
  | dir (name : Str) (entries : Option (List Node))

/-- `path.join(dir, file.name)` for a single path component, POSIX separator. -/
def pathJoin (dir name : Str) : Str := dir ++ '/' :: name

/-- The directory part of the test of lines 187, 217 and 252:
`!file.name.startsWith('.') && file.name !== 'node_modules'`. -/
def descends (name : Str) : Bool :=
  !startsWith name ".".toList && name != "node_modules".toList

/-- The test of lines 189, 219 and 256:
`file.name.endsWith('.ts') || file.name.endsWith('.js')`. -/
def hasSourceExtension (name : Str) : Bool :=
  endsWith name ".ts".toList || endsWith name ".js".toList

/-! ### Console statements (source lines 181-205) -/

/-- The test of line 194:
`line.includes('console.log') && !line.trim().startsWith('//')`. -/
def flagsConsoleLog (line : Str) : Bool :=
  includes line "console.log".toList && !startsWith (trim line) "//".toList

/-- The loop `lines.forEach((line, index) => ...)` of lines 193-197, pushing
`fullPath:index+1` onto `consoleLogs` for every flagged line. -/
def scanLines (fullPath : Str) : (lines : List Str) → (index : Nat) →
    (consoleLogs : List Str) → List Str
  | [], _, consoleLogs => consoleLogs
  | line :: rest, index, consoleLogs =>
    scanLines fullPath rest (index + 1)
      (if flagsConsoleLog line then
        consoleLogs ++ [fullPath ++ ':' :: natToStr (index + 1)]
      else consoleLogs)

/-- The body of the `try` of lines 191-197 for a file that could be read. -/
def scanContent (fullPath content : Str) (consoleLogs : List Str) : List Str :=
  scanLines fullPath (split (Char.ofNat 10) content) 0 consoleLogs

mutual
/-- The function `findConsoleLogs(dir)`, given the outcome of
`fs.readdirSync(dir)`; `none` is a thrown error. -/
def findConsoleLogs (dir : Str) : Option (List Node) → Option (List Str)
  | none => none
  | some files => findConsoleLogsEach dir files []
termination_by structural files => files
/-- The loop `files.forEach(...)` of `findConsoleLogs`: the callback is applied
to the entries in listing order and a throw ends the loop. -/
def findConsoleLogsEach (dir : Str) : List Node → List Str → Option (List Str)
  | [], consoleLogs => some consoleLogs
  | file :: rest, consoleLogs =>
    match findConsoleLogsFile dir file consoleLogs with
    | none => none
    | some consoleLogs => findConsoleLogsEach dir rest consoleLogs
termination_by structural files => files
/-- The callback `file => ...` of lines 185-202, applied to one entry. -/
def findConsoleLogsFile (dir : Str) : Node → List Str → Option (List Str)
  | Node.dir name entries, consoleLogs =>
    if descends name then
      match findConsoleLogs (pathJoin dir name) entries with
      | none => none
      | some found => some (consoleLogs ++ found)
    else
      -- with a matching extension `readFileSync` throws on a directory and
      -- the error is swallowed; otherwise the entry is ignored
      some consoleLogs
  | Node.file name content, consoleLogs =>
    if hasSourceExtension name then
      match content with
      | none => some consoleLogs
      | some content => some (scanContent (pathJoin dir name) content consoleLogs)
    else some consoleLogs
termination_by structural file => file
end

/-! ### Hardcoded credentials (source lines 211-240) -/

/-- A one-character matcher of the credential patterns. -/
inductive Atom where
  /-- a letter of the pattern under the flag `i`, given in lower and upper case -/
  | letter (lower upper : Char)
  /-- a character that is not a letter, matched literally -/
  | exact (c : Char)
  /-- the class `\s` -/
  | space
  /-- a class `[...]` -/
  | oneOf (cs : List Char)
  /-- a negated class `[^...]` -/
  | noneOf (cs : List Char)
  deriving DecidableEq, Repr

/-- How often an atom is to be matched. -/
inductive Quantifier where
  | once
  | optional
  | star
  | plus
  deriving DecidableEq, Repr

/-- A pattern is a sequence of quantified atoms. -/
abbrev Pattern := List (Atom × Quantifier)

/-- Does the atom match the character. -/
def Atom.accepts : Atom → Char → Bool
  | .letter lower upper, c => c == lower || c == upper
  | .exact d, c => c == d
  | .space, c => isWhiteSpace c
  | .oneOf cs, c => cs.contains c
  | .noneOf cs, c => !cs.contains c

/-- Match `a*` followed by the continuation `k`, the longer repetition first. -/
def matchStar (a : Atom) (k : Str → Bool) : Str → Bool
  | [] => k []
  | c :: s => (a.accepts c && matchStar a k s) || k (c :: s)

/-- Does the pattern match a prefix of the text. -/
def matchHere : Pattern → Str → Bool
  | [], _ => true
  | (a, .once) :: rest, s =>
    match s with
    | [] => false
    | c :: s => a.accepts c && matchHere rest s
  | (a, .optional) :: rest, s =>
    (match s with
      | [] => false
      | c :: s => a.accepts c && matchHere rest s) || matchHere rest s
  | (a, .star) :: rest, s => matchStar a (matchHere rest) s
  | (a, .plus) :: rest, s =>
    match s with
    | [] => false
    | c :: s => a.accepts c && matchStar a (matchHere rest) s

/-- `pattern.test(content)` for a pattern without the flag `g`: the pattern
matches at some position of the text. -/
def Pattern.test (p : Pattern) : Str → Bool
  | [] => matchHere p []
  | c :: s => matchHere p (c :: s) || Pattern.test p s

/-- The letters of a word under the flag `i`: each matches its lower-case and
its upper-case form. -/
def word (w : String) : Pattern :=
  w.toList.map fun c => (Atom.letter c c.toUpper, Quantifier.once)

/-- The two quote characters of the classes `['"]` and `[^'"]`. -/
def quotes : List Char := [Char.ofNat 39, Char.ofNat 34]

/-- The common tail `\s*=\s*['"][^'"]+['"]` of the three patterns. -/
def quotedAssignment : Pattern :=
  [(Atom.space, Quantifier.star), (Atom.exact '=', Quantifier.once),
   (Atom.space, Quantifier.star), (Atom.oneOf quotes, Quantifier.once),
   (Atom.noneOf quotes, Quantifier.plus), (Atom.oneOf quotes, Quantifier.once)]

/-- The pattern of line 223, `password` followed by the quoted assignment. -/
def passwordPattern : Pattern := word "password" ++ quotedAssignment

/-- The pattern of line 224, `api[_-]?key` followed by the quoted assignment. -/
def apiKeyPattern : Pattern :=
  word "api" ++ [(Atom.oneOf ['_', '-'], Quantifier.optional)] ++ word "key" ++
    quotedAssignment

/-- The pattern of line 225, `token` followed by the quoted assignment. -/
def tokenPattern : Pattern := word "token" ++ quotedAssignment

/-- The array `credPatterns` of lines 222-226. -/
def credPatterns : List Pattern := [passwordPattern, apiKeyPattern, tokenPattern]

/-- The loop `credPatterns.forEach(pattern => ...)` of lines 228-232: one
push of `fullPath` for every pattern that matches the content. -/
def scanCreds (fullPath content : Str) : (patterns : List Pattern) →
    (hardcodedCreds : List Str) → List Str
  | [], hardcodedCreds => hardcodedCreds
  | pattern :: rest, hardcodedCreds =>
    scanCreds fullPath content rest
      (if pattern.test content then hardcodedCreds ++ [fullPath] else hardcodedCreds)

mutual
/-- The function `findHardcodedCreds(dir)`, given the outcome of
`fs.readdirSync(dir)`; `none` is a thrown error. -/
def findHardcodedCreds (dir : Str) : Option (List Node) → Option (List Str)
  | none => none
  | some files => findHardcodedCredsEach dir files []
termination_by structural files => files
/-- The loop `files.forEach(...)` of `findHardcodedCreds`. -/
def findHardcodedCredsEach (dir : Str) : List Node → List Str → Option (List Str)
  | [], hardcodedCreds => some hardcodedCreds
  | file :: rest, hardcodedCreds =>
    match findHardcodedCredsFile dir file hardcodedCreds with
    | none => none
    | some hardcodedCreds => findHardcodedCredsEach dir rest hardcodedCreds
termination_by structural files => files
/-- The callback `file => ...` of lines 215-237, applied to one entry. -/
def findHardcodedCredsFile (dir : Str) : Node → List Str → Option (List Str)
  | Node.dir name entries, hardcodedCreds =>
    if descends name then
      match findHardcodedCreds (pathJoin dir name) entries with
      | none => none
      | some found => some (hardcodedCreds ++ found)
    else some hardcodedCreds
  | Node.file name content, hardcodedCreds =>
    if hasSourceExtension name then
      match content with
      | none => some hardcodedCreds
      | some content =>
        some (scanCreds (pathJoin dir name) content credPatterns hardcodedCreds)
    else some hardcodedCreds
termination_by structural file => file
end

/-! ### Error handling (source lines 246-271) -/

/-- The object `errorHandling`. -/
structure ErrorHandling where
  good : Nat
  needsImprovement : Nat
  deriving DecidableEq, Repr

/-- The body of the `try` of lines 258-263 for a file that could be read. -/
def classify (content : Str) (errorHandling : ErrorHandling) : ErrorHandling :=
  if includes content "try".toList && includes content "catch".toList then
    { errorHandling with good := errorHandling.good + 1 }
  else if includes content "await".toList || includes content "Promise".toList then
    { errorHandling with needsImprovement := errorHandling.needsImprovement + 1 }
  else errorHandling

mutual
/-- The function `findErrorHandling(dir)`, given the outcome of
`fs.readdirSync(dir)`; `none` is a thrown error. -/
def findErrorHandling (dir : Str) : Option (List Node) → Option ErrorHandling
  | none => none
  | some files => findErrorHandlingEach dir files { good := 0, needsImprovement := 0 }
termination_by structural files => files
/-- The loop `files.forEach(...)` of `findErrorHandling`. -/
def findErrorHandlingEach (dir : Str) : List Node → ErrorHandling → Option ErrorHandling
  | [], errorHandling => some errorHandling
  | file :: rest, errorHandling =>
    match findErrorHandlingFile dir file errorHandling with
    | none => none
    | some errorHandling => findErrorHandlingEach dir rest errorHandling
termination_by structural files => files
/-- The callback `file => ...` of lines 250-268, applied to one entry. -/
def findErrorHandlingFile (dir : Str) : Node → ErrorHandling → Option ErrorHandling
  | Node.dir name entries, errorHandling =>
    if descends name then
      match findErrorHandling (pathJoin dir name) entries with
      | none => none
      | some subResult =>
        some { good := errorHandling.good + subResult.good
               needsImprovement :=
                 errorHandling.needsImprovement + subResult.needsImprovement }
    else some errorHandling
  | Node.file name content, errorHandling =>
    if hasSourceExtension name then
      match content with
      | none => some errorHandling
      | some content => some (classify content errorHandling)
    else some errorHandling
termination_by structural file => file
end

/-! ## The world outside the script -/

/-- What the UI test branch reads off the parsed reporter output
`testData = JSON.parse(testResult)`: the renderings of
`testData.stats.total`, `.passed` and `.failed` inside the two template
literals, and the values of `passedTests > 0` and `failedTests === 0`. -/
structure UiStats where
  totalTests : String
  passedTests : String
  failedTests : String
  passedPositive : Bool
  failedIsZero : Bool

/-- The answers of the operating system and of the JSON reader, as functions
of the working directory of the process and of the argument.  Paths are the
relative paths the script passes; a path gives the same answer each time it
is asked from the same working directory. -/
structure Env where
  /-- `execSync(command, { cwd })`: the captured output, `none` when it throws -/
  execSync : (cwd command : String) → Option Str
  /-- `fs.existsSync(path)` -/
  existsSync : (cwd path : String) → Bool
  /-- `fs.readFileSync(path, "utf8")`, `none` when it throws -/
  readFileSync : (cwd path : String) → Option Str
  /-- `fs.readdirSync(path)`, `none` when it throws -/
  readdirSync : (cwd path : String) → Option (List Node)
  /-- `process.chdir(directory)`: the new working directory, or the message
  of the error thrown -/
  chdir : (cwd directory : String) → Except String String
  /-- `JSON.parse(text)` followed by the truthiness of
  `packageJson.dependencies && Object.keys(packageJson.dependencies).length > 0`;
  `none` when the parse or the property access throws -/
  dependenciesConfigured : Str → Option Bool
  /-- `JSON.parse(testResult)` followed by the reads of `testData.stats`;
  `none` when the parse or a property access throws -/
  uiStats : Str → Option UiStats

/-- The mutable state of the process: `results` and the working directory. -/
structure State where
  results : Results
  cwd : String
  deriving DecidableEq, Repr

/-- What `runCommand` returns: the output text, or the object
`{ error, stderr }` built in its `catch`. -/
inductive CommandResult where
  | output (text : Str)
  | failure

/-- The function `runCommand(command, cwd = process.cwd())`: every error of
`execSync` is caught and turned into the failure object.  The default
argument `process.cwd()` is taken to return the working directory of the
state without throwing. -/
def runCommand (env : Env) (command cwd : String) : CommandResult :=
  match env.execSync cwd command with
  | some text => CommandResult.output text
  | none => CommandResult.failure

/-- The truthiness of `result.error`: undefined on a string, the error
message on the object built in the `catch` of `runCommand`. -/
def CommandResult.error : CommandResult → Bool
  | .output _ => false
  | .failure => true

/-! ## Pre-flight checks (source lines 54-104) -/

/-- The value of a digit or letter as `parseInt` reads it. -/
def digitValue (c : Char) : Option Nat :=
  if '0' ≤ c ∧ c ≤ '9' then some (c.toNat - 48)
  else if 'a' ≤ c ∧ c ≤ 'z' then some (c.toNat - 87)
  else if 'A' ≤ c ∧ c ≤ 'Z' then some (c.toNat - 55)
  else none

/-- The longest run of leading digits valid in the radix. -/
def readDigits (radix : Nat) : Str → List Nat
  | [] => []
  | c :: s =>
    match digitValue c with
    | some d => if d < radix then d :: readDigits radix s else []
    | none => []

/-- `parseInt(s)` without a radix argument: leading white space is skipped,
a sign is read, a prefix `0x` or `0X` selects radix 16, and the longest run
of digits is the value; `none` is `NaN`. -/
def parseInt (s : Str) : Option Int :=
  let s := trimStart s
  let signed : Bool × Str :=
    match s with
    | '-' :: r => (true, r)
    | '+' :: r => (false, r)
    | r => (false, r)
  let based : Nat × Str :=
    match signed.2 with
    | '0' :: 'x' :: r => (16, r)
    | '0' :: 'X' :: r => (16, r)
    | r => (10, r)
  match readDigits based.1 based.2 with
  | [] => none
  | d :: ds =>
    let n : Int := ((d :: ds).foldl (fun acc digit => acc * based.1 + digit) 0 : Nat)
    some (if signed.1 then -n else n)

/-- The comparison `majorVersion >= 18`, false for `NaN`. -/
def atLeast18 : Option Int → Bool
  | none => false
  | some n => decide (18 ≤ n)

/-- The array `sensitiveFiles`. -/
def sensitiveFiles : List String := [".env", "credentials.json", "secrets.json"]

/-- The Node.js version check of lines 59-66.  `trim` is not a function of
the failure object, so a failed command reaches the `catch`. -/
def checkNodeVersion (env : Env) (st : State) : State :=
  match runCommand env "node --version" st.cwd with
  | .output nodeVersion =>
    let version := (trim nodeVersion).erase 'v'
    let majorVersion := parseInt ((split '.' version).headD [])
    let r := check (atLeast18 majorVersion)
      ("Node.js v" ++ String.mk version ++ " detected (>=18 required)")
      Category.preflight st.results
    { st with results := r }
  | .failure =>
    let r := check false "Node.js not found or incompatible" Category.preflight st.results
    { st with results := r }

/-- The UI dependency check of lines 73-81. -/
def checkUiDependencies (env : Env) (st : State) : State :=
  if env.existsSync st.cwd "ui-tests/package.json" then
    match (env.readFileSync st.cwd "ui-tests/package.json").bind env.dependenciesConfigured with
    | some configured =>
      let r := check configured "UI dependencies configured" Category.preflight st.results
      { st with results := r }
    | none =>
      let r := check false "UI package.json invalid or missing" Category.preflight st.results
      { st with results := r }
  else st

/-- The function `validatePreflight`. -/
def validatePreflight (env : Env) (st : State) : State :=
  let st := checkNodeVersion env st
  let isInProject := env.existsSync st.cwd "ui-tests" && env.existsSync st.cwd "api-tests"
  let r := check isInProject "Project structure detected (ui-tests, api-tests)"
    Category.preflight st.results
  let st := checkUiDependencies env { st with results := r }
  let r :=
    if env.existsSync st.cwd "api-tests/pom.xml" then
      check true "API Maven configuration found" Category.preflight st.results
    else st.results
  let r := check (env.existsSync st.cwd "ui-tests/playwright.config.ts")
    "Playwright config present" Category.preflight r
  let r := check (env.existsSync st.cwd "ui-tests/.env.sample")
    "Environment sample file present" Category.preflight r
  let r := check (env.existsSync st.cwd "api-tests/.env.sample")
    "API environment sample present" Category.preflight r
  let hasSensitiveData := sensitiveFiles.any fun file =>
    env.existsSync st.cwd ("ui-tests/" ++ file) || env.existsSync st.cwd ("api-tests/" ++ file)
  let r := check (!hasSensitiveData) "No sensitive data files committed" Category.preflight r
  { st with results := r }

/-! ## Test execution (source lines 106-174) -/

/-- The branch of lines 125-139 on the result of the UI test command. -/
def recordUiTestResult (env : Env) (testResult : CommandResult) (r : Results) : Results :=
  match testResult with
  | .output text =>
    match env.uiStats text with
    | some stats =>
      let r := check stats.passedPositive
        ("UI tests executed: " ++ stats.passedTests ++ "/" ++ stats.totalTests ++ " passed")
        Category.tests r
      check stats.failedIsZero ("No UI test failures: " ++ stats.failedTests ++ " failed")
        Category.tests r
    | none => check false "UI test results could not be parsed" Category.tests r
  | .failure => check false "UI tests failed to execute" Category.tests r

/-- The UI part of `validateTests`, lines 112-147.  An error thrown by either
`process.chdir` reaches the `catch` of line 142, which records a failed check
and leaves the working directory where the throw found it. -/
def validateUiTests (env : Env) (st : State) : State :=
  if env.existsSync st.cwd "ui-tests" then
    match env.chdir st.cwd "ui-tests" with
    | .error message =>
      let r := check false ("UI test execution error: " ++ message) Category.tests st.results
      { st with results := r }
    | .ok inside =>
      let installResult := runCommand env "npm ci" inside
      let r := check (!installResult.error) "UI dependencies installed successfully"
        Category.tests st.results
      let testResult := runCommand env "npx playwright test --reporter=json" inside
      let r := recordUiTestResult env testResult r
      match env.chdir inside ".." with
      | .ok back => { results := r, cwd := back }
      | .error message =>
        let r := check false ("UI test execution error: " ++ message) Category.tests r
        { results := r, cwd := inside }
  else
    let r := check false "UI tests directory not found" Category.tests st.results
    { st with results := r }

/-- The API part of `validateTests`, lines 151-171. -/
def validateApiTests (env : Env) (st : State) : State :=
  if env.existsSync st.cwd "api-tests" then
    match env.chdir st.cwd "api-tests" with
    | .error message =>
      let r := check false ("API test execution error: " ++ message) Category.tests st.results
      { st with results := r }
    | .ok inside =>
      let testResult := runCommand env "mvn test -Dtest=InventoryTestRunner" inside
      let r :=
        if !testResult.error then
          check true "API tests executed successfully" Category.tests st.results
        else check false "API tests failed to execute" Category.tests st.results
      match env.chdir inside ".." with
      | .ok back => { results := r, cwd := back }
      | .error message =>
        let r := check false ("API test execution error: " ++ message) Category.tests r
        { results := r, cwd := inside }
  else
    let r := check false "API tests directory not found" Category.tests st.results
    { st with results := r }

/-- The function `validateTests`. -/
def validateTests (env : Env) (st : State) : State :=
  validateApiTests env (validateUiTests env st)

/-! ## Code quality checks (source lines 176-277) -/

/-- Lines 207-208: the console statement scan of `ui-tests` and its check;
`none` when `fs.readdirSync` throws during the scan. -/
def checkConsoleLogs (env : Env) (st : State) : Option State :=
  match findConsoleLogs "ui-tests".toList (env.readdirSync st.cwd "ui-tests") with
  | none => none
  | some consoleLogs =>
    let r := check (consoleLogs.length == 0)
      ("No console.log statements found (" ++ toString consoleLogs.length ++ " found)")
      Category.quality st.results
    some { st with results := r }

/-- Lines 242-243: the credential scan of `ui-tests` and its check. -/
def checkHardcodedCreds (env : Env) (st : State) : Option State :=
  match findHardcodedCreds "ui-tests".toList (env.readdirSync st.cwd "ui-tests") with
  | none => none
  | some hardcodedCreds =>
    let r := check (hardcodedCreds.length == 0)
      ("No hardcoded credentials found (" ++ toString hardcodedCreds.length ++ " found)")
      Category.quality st.results
    some { st with results := r }

/-- Lines 273-274: the error handling scan of `ui-tests` and its check. -/
def checkErrorHandling (env : Env) (st : State) : Option State :=
  match findErrorHandling "ui-tests".toList (env.readdirSync st.cwd "ui-tests") with
  | none => none
  | some errorHandling =>
    let r := check (errorHandling.needsImprovement == 0) "Proper error handling implemented"
      Category.quality st.results
    some { st with results := r }

/-- The function `validateCodeQuality`; `none` when an error escapes it. -/
def validateCodeQuality (env : Env) (st : State) : Option State :=
  (checkConsoleLogs env st).bind fun st =>
  (checkHardcodedCreds env st).bind fun st =>
  checkErrorHandling env st

/-! ## Reports and artifacts (source lines 279-294) -/

/-- The function `validateReports`; `none` when an error escapes it.  The
last check passes when the listing of `ui-tests/playwright-report` has any
entry, whatever its name or type. -/
def validateReports (env : Env) (st : State) : Option State :=
  let r := check (env.existsSync st.cwd "ui-tests/playwright-report")
    "Playwright report directory exists" Category.reports st.results
  let r := check (env.existsSync st.cwd "api-tests/target/surefire-reports")
    "API test reports directory exists" Category.reports r
  if env.existsSync st.cwd "ui-tests/playwright-report" then
    match env.readdirSync st.cwd "ui-tests/playwright-report" with
    | none => none
    | some reportFiles =>
      let r := check (decide (reportFiles.length > 0)) "Test reports generated"
        Category.reports r
      some { st with results := r }
  else some { st with results := r }

/-! ## Main execution (source lines 346-365) -/

/-- The five functions `main` awaits, in the order of lines 353-357. -/
inductive Phase where
  | validatePreflight
  | validateTests
  | validateCodeQuality
  | validateReports
  | generateSummary
  deriving DecidableEq, Repr

/-- How a run of `main` ends.  `summarised`: the four phases returned and
`generateSummary` ended the process.  `caught`: an error escaped the named
phase and the `catch` of line 358 ended the process with `process.exit(1)`. -/
inductive RunResult where
  | summarised (st : State) (summary : Summary)
  | caught (phase : Phase)
  deriving DecidableEq, Repr

/-- The function `main`, started in the working directory `cwd`. -/
def main (env : Env) (cwd : String) : RunResult :=
  let st := validatePreflight env { results := initialResults, cwd := cwd }
  let st := validateTests env st
  match validateCodeQuality env st with
  | none => RunResult.caught Phase.validateCodeQuality
  | some st =>
    match validateReports env st with
    | none => RunResult.caught Phase.validateReports
    | some st => RunResult.summarised st (generateSummary st.results)

/-- The exit code of the process. -/
def RunResult.exitCode : RunResult → Nat
  | .summarised _ summary => summary.exitCode
  | .caught _ => 1

/-- The phases that were entered, in order. -/
def RunResult.phasesRun : RunResult → List Phase
  | .summarised _ _ =>
    [Phase.validatePreflight, Phase.validateTests, Phase.validateCodeQuality,
     Phase.validateReports, Phase.generateSummary]
  | .caught Phase.validatePreflight => [Phase.validatePreflight]
  | .caught Phase.validateTests => [Phase.validatePreflight, Phase.validateTests]
  | .caught Phase.validateCodeQuality =>
    [Phase.validatePreflight, Phase.validateTests, Phase.validateCodeQuality]
  | .caught Phase.validateReports =>
    [Phase.validatePreflight, Phase.validateTests, Phase.validateCodeQuality,
     Phase.validateReports]
  | .caught Phase.generateSummary =>
    [Phase.validatePreflight, Phase.validateTests, Phase.validateCodeQuality,
     Phase.validateReports, Phase.generateSummary]

/-- The verdict of the run, when one was computed. -/
def RunResult.verdict : RunResult → Option Verdict
  | .summarised _ summary => some summary.deliveryStatus
  | .caught _ => none

/-! ## Vocabulary of the statements

The definitions below are not taken from the script: they say, in terms of
lists, prefixes, suffixes and infixes, what the statements about the script
talk about. -/

/-- One call `check(condition, message, category)`. -/
structure Call where
  condition : Bool
  message : String
  category : Category
  deriving DecidableEq, Repr

/-- A finite sequence of `check` calls applied to `results` in call order. -/
def runChecks (calls : List Call) (r : Results) : Results :=
  calls.foldl (fun r call => check call.condition call.message call.category r) r

/-- The calls of the sequence made to one category. -/
def callsTo (category : Category) (calls : List Call) : List Call :=
  calls.filter fun call => call.category = category

/-- A directory name the scan does not descend into: it starts with a dot or
is `node_modules`. -/
def SkippedName (name : Str) : Prop :=
  ['.'] <+: name ∨ name = "node_modules".toList

instance (name : Str) : Decidable (SkippedName name) := by
  unfold SkippedName; infer_instance

/-- A file name on the extension allow-list: it ends in `.ts` or in `.js`. -/
def SourceName (name : Str) : Prop :=
  ".ts".toList <:+ name ∨ ".js".toList <:+ name

instance (name : Str) : Decidable (SourceName name) := by
  unfold SourceName; infer_instance

/-- A file of the tree: its path, its name, the names of the directories
below the scan root that contain it (outermost first) and its content, `none`
when it cannot be read. -/
structure FileEntry where
  path : Str
  name : Str
  ancestors : List Str
  content : Option Str
  deriving DecidableEq, Repr

mutual
/-- Every file beneath a directory whose listing is given, depth first in
listing order, skipped directories included. -/
def filesUnder (dir : Str) (ancestors : List Str) : Option (List Node) → List FileEntry
  | none => []
  | some files => filesAmong dir ancestors files
termination_by structural files => files
/-- Every file among and beneath the given entries. -/
def filesAmong (dir : Str) (ancestors : List Str) : List Node → List FileEntry
  | [] => []
  | file :: rest => filesOf dir ancestors file ++ filesAmong dir ancestors rest
termination_by structural files => files
/-- The entry itself when it is a file, every file beneath it when it is a
directory. -/
def filesOf (dir : Str) (ancestors : List Str) : Node → List FileEntry
  | Node.file name content =>
    [{ path := pathJoin dir name, name := name, ancestors := ancestors, content := content }]
  | Node.dir name entries => filesUnder (pathJoin dir name) (ancestors ++ [name]) entries
termination_by structural file => file
end

/-- The path and content handed to a detector when the file has to be
visited: it has an allowed extension, none of its ancestors below the root is
skipped, and it can be read. -/
def FileEntry.visit (f : FileEntry) : Option (Str × Str) :=
  if SourceName f.name ∧ ∀ a ∈ f.ancestors, ¬ SkippedName a then
    f.content.map fun content => (f.path, content)
  else none

/-- The files a walker has to visit, as pairs of path and content, each file
of the tree at most once, in depth-first listing order. -/
def visitedFiles (dir : Str) (root : Option (List Node)) : List (Str × Str) :=
  (filesUnder dir [] root).filterMap FileEntry.visit

mutual
/-- Every directory the scan descends into can be listed. -/
def listable : Option (List Node) → Bool
  | none => false
  | some files => listableEach files
termination_by structural files => files
/-- Every directory among and beneath the entries that the scan descends into
can be listed. -/
def listableEach : List Node → Bool
  | [] => true
  | file :: rest => listableFile file && listableEach rest
termination_by structural files => files
/-- A file, a skipped directory, or a directory that can be listed and whose
entries are listable. -/
def listableFile : Node → Bool
  | Node.file _ _ => true
  | Node.dir name entries => decide (SkippedName name) || listable entries
termination_by structural file => file
end

/-- A line the console statement finder has to report: it contains
`console.log` and, trimmed, does not start with `//`. -/
def Flagged (line : Str) : Prop :=
  "console.log".toList <:+: line ∧ ¬ "//".toList <+: trim line

instance (line : Str) : Decidable (Flagged line) := by
  unfold Flagged; infer_instance

/-- The 1-based numbers of the flagged lines of a content, the lines being
the pieces between line feeds. -/
def flaggedLineNumbers (content : Str) : List Nat :=
  ((split (Char.ofNat 10) content).enum.filter fun il => decide (Flagged il.2)).map fun il =>
    il.1 + 1

/-- The entries the console statement finder has to produce for a file: one
`path:i` for each flagged line number `i`. -/
def expectedConsoleLogs (path content : Str) : List Str :=
  (flaggedLineNumbers content).map fun i => path ++ ':' :: natToStr i

/-- Content classified as good: it contains `try` and `catch`. -/
def Good (content : Str) : Prop :=
  "try".toList <:+: content ∧ "catch".toList <:+: content

instance (content : Str) : Decidable (Good content) := by
  unfold Good; infer_instance

/-- Content classified as needing improvement: it is not good and contains
`await` or `Promise`. -/
def NeedsImprovement (content : Str) : Prop :=
  ¬ Good content ∧ ("await".toList <:+: content ∨ "Promise".toList <:+: content)

instance (content : Str) : Decidable (NeedsImprovement content) := by
  unfold NeedsImprovement; infer_instance

/-- Sum of two tallies. -/
def ErrorHandling.add (a b : ErrorHandling) : ErrorHandling :=
  { good := a.good + b.good, needsImprovement := a.needsImprovement + b.needsImprovement }

/-- The tally the error handling scan has to return for a list of visited
files: the number of good ones and the number needing improvement. -/
def tallyOf (files : List (Str × Str)) : ErrorHandling :=
  { good := (files.filter fun f => decide (Good f.2)).length
    needsImprovement := (files.filter fun f => decide (NeedsImprovement f.2)).length }

/-- The number of credential patterns that match somewhere in the content. -/
def matchingPatterns (content : Str) : Nat :=
  (credPatterns.filter fun pattern => pattern.test content).length

/-- What an entry adds to the tally of the directory that lists it: a file
adds its own classification when it is visited, a skipped directory adds
nothing, any other directory adds the tally of the scan of its listing. -/
def contribution (dir : Str) : Node → ErrorHandling
  | Node.file name content =>
    if SourceName name then
      match content with
      | some c => tallyOf [(pathJoin dir name, c)]
      | none => { good := 0, needsImprovement := 0 }
    else { good := 0, needsImprovement := 0 }
  | Node.dir name entries =>
    if SkippedName name then { good := 0, needsImprovement := 0 }
    else (findErrorHandling (pathJoin dir name) entries).getD { good := 0, needsImprovement := 0 }

/-- The texts a pattern matches from their first to their last character. -/
def Pattern.Accepts : Pattern → Str → Prop
  | [], m => m = []
  | (a, .once) :: rest, m =>
    ∃ c m', m = c :: m' ∧ a.accepts c = true ∧ Pattern.Accepts rest m'
  | (a, .optional) :: rest, m =>
    Pattern.Accepts rest m ∨
      ∃ c m', m = c :: m' ∧ a.accepts c = true ∧ Pattern.Accepts rest m'
  | (a, .star) :: rest, m =>
    ∃ cs m', m = cs ++ m' ∧ (∀ c ∈ cs, a.accepts c = true) ∧ Pattern.Accepts rest m'
  | (a, .plus) :: rest, m =>
    ∃ c cs m', m = c :: cs ++ m' ∧ a.accepts c = true ∧ (∀ c ∈ cs, a.accepts c = true) ∧
      Pattern.Accepts rest m'

/-- The content holds an assignment of a quoted literal to the keyword: the
keyword, optional white space, `=`, optional white space, a quote, one or more
characters that are not quotes, and a quote. -/
def CredentialAssignment (keyword : Pattern) (content : Str) : Prop :=
  ∃ pre key ws1 ws2 q1 body q2 post,
    content = pre ++ (key ++ (ws1 ++ '=' :: (ws2 ++ q1 :: (body ++ q2 :: post)))) ∧
    keyword.Accepts key ∧ (∀ c ∈ ws1, isWhiteSpace c = true) ∧
    (∀ c ∈ ws2, isWhiteSpace c = true) ∧ q1 ∈ quotes ∧ q2 ∈ quotes ∧ body ≠ [] ∧
    ∀ c ∈ body, c ∉ quotes

/-! ## Sample inputs -/

/-- A listing of `ui-tests`: a source file with a console statement on line 3
and a commented one on line 5, a file with another extension, an unreadable
source file, a dependency directory, a hidden directory that cannot be
listed, and a source directory with two files. -/
def sampleTree : List Node :=
  [ Node.file "app.ts".toList (some "a\nb\nconsole.log(x)\nc\n// console.log(y)".toList),
    Node.file "README.md".toList (some "console.log(doc)".toList),
    Node.file "locked.js".toList none,
    Node.dir "node_modules".toList
      (some [Node.file "dep.js".toList (some "await console.log(dep)".toList)]),
    Node.dir ".cache".toList none,
    Node.dir "src".toList
      (some
        [ Node.file "login.js".toList
            (some "const password = \"abc123\"\nawait signIn(password)".toList),
          Node.file "safe.ts".toList (some "try\n  await run()\ncatch (e)".toList) ]) ]

/-- The paths that exist in the sample project, relative to its root. -/
def samplePaths : List String :=
  [ "ui-tests", "api-tests", "ui-tests/package.json", "api-tests/pom.xml",
    "ui-tests/playwright.config.ts", "ui-tests/.env.sample", "api-tests/.env.sample",
    "ui-tests/playwright-report", "api-tests/target/surefire-reports" ]

/-- A complete project rooted at `/work` in which every command succeeds. -/
def sampleEnv : Env where
  execSync := fun _ command =>
    if command = "node --version" then some "v20.11.0\n".toList else some "done".toList
  existsSync := fun cwd path => decide (cwd = "/work") && decide (path ∈ samplePaths)
  readFileSync := fun _ _ => some "package".toList
  readdirSync := fun cwd path =>
    if cwd = "/work" ∧ path = "ui-tests" then some sampleTree
    else if cwd = "/work" ∧ path = "ui-tests/playwright-report" then
      some [Node.file "index.html".toList none]
    else none
  chdir := fun cwd directory =>
    if directory = ".." then
      if cwd = "/work/ui-tests" ∨ cwd = "/work/api-tests" then Except.ok "/work"
      else Except.ok "/"
    else if cwd = "/work" then Except.ok ("/work/" ++ directory)
    else Except.error "ENOENT: no such file or directory"
  dependenciesConfigured := fun _ => some true
  uiStats := fun _ =>
    some { totalTests := "3", passedTests := "3", failedTests := "0",
           passedPositive := true, failedIsZero := true }

/-- The script started in a directory that has `api-tests` but no `ui-tests`. -/
def envWithoutUiTests : Env :=
  { sampleEnv with
    existsSync := fun cwd path =>
      decide (cwd = "/work") &&
        decide (path ∈ ["api-tests", "api-tests/pom.xml", "api-tests/.env.sample",
          "api-tests/target/surefire-reports"])
    readdirSync := fun _ _ => none }

/-- The sample project with `ui-tests/playwright-report` present but not
listable, as when it is a regular file. -/
def envUnlistableReport : Env :=
  { sampleEnv with
    readdirSync := fun cwd path =>
      if cwd = "/work" ∧ path = "ui-tests" then some sampleTree else none }

/-- The sample project with `ui-tests` a symbolic link to `/srv/suites/ui`:
entering it lands in the target, whose parent is `/srv/suites`. -/
def envLinkedUiTests : Env :=
  { sampleEnv with
    chdir := fun cwd directory =>
      if cwd = "/work" ∧ directory = "ui-tests" then Except.ok "/srv/suites/ui"
      else if cwd = "/srv/suites/ui" ∧ directory = ".." then Except.ok "/srv/suites"
      else if cwd = "/work" ∧ directory = "api-tests" then Except.ok "/work/api-tests"
      else if cwd = "/work/api-tests" ∧ directory = ".." then Except.ok "/work"
      else Except.error "ENOENT: no such file or directory" }

/-- The sample project in which every `process.chdir('..')` throws, for a
cause that is not an outcome of the commands, such as a permission error on
the directory; entering a suite directory succeeds. -/
def envChdirBackThrows : Env :=
  { sampleEnv with
    chdir := fun cwd directory =>
      if directory = ".." then Except.error "EACCES: permission denied"
      else if cwd = "/work" then Except.ok ("/work/" ++ directory)
      else Except.error "ENOENT: no such file or directory" }

/-- A listing of `ui-tests` with a source file, a directory `locked` that the
scan descends into but that cannot be listed, and a second source file. -/
def treeWithLockedDirectory : List Node :=
  [ Node.file "a.ts".toList (some "console.log(a)".toList),
    Node.dir "locked".toList none,
    Node.file "z.ts".toList (some "const token = \"t\"\nawait console.log(z)".toList) ]

/-! # Theorems -/

/-! ## The check recorder and the summary -/

theorem totalPassed_eq (r : Results) :
    totalPassed r = r.preflight.passed + r.tests.passed + r.quality.passed + r.reports.passed := by
  simp [totalPassed, Results.values]

theorem totalFailed_eq (r : Results) :
    totalFailed r = r.preflight.failed + r.tests.failed + r.quality.failed + r.reports.failed := by
  simp [totalFailed, Results.values]

theorem get_check (condition : Bool) (message : String) (category other : Category)
    (r : Results) :
    (check condition message category r).get other =
      if other = category then
        (if condition then { r.get category with passed := (r.get category).passed + 1 }
         else { r.get category with
                failed := (r.get category).failed + 1
                issues := (r.get category).issues ++ [message] })
      else r.get other := by
  cases category <;> cases other <;> cases condition <;>
    simp [check, Results.get, Results.set]

theorem runChecks_cons (call : Call) (calls : List Call) (r : Results) :
    runChecks (call :: calls) r =
      runChecks calls (check call.condition call.message call.category r) := rfl

theorem runChecks_get (calls : List Call) (category : Category) (r : Results) :
    ((runChecks calls r).get category).passed =
        (r.get category).passed +
          ((callsTo category calls).filter fun call => call.condition).length ∧
    ((runChecks calls r).get category).failed =
        (r.get category).failed +
          ((callsTo category calls).filter fun call => !call.condition).length ∧
    ((runChecks calls r).get category).issues =
        (r.get category).issues ++
          ((callsTo category calls).filter fun call => !call.condition).map Call.message := by
  induction calls generalizing r with
  | nil => simp [runChecks, callsTo]
  | cons call calls ih =>
    rw [runChecks_cons]
    obtain ⟨hp, hf, hi⟩ := ih (check call.condition call.message call.category r)
    rw [hp, hf, hi, get_check]
    by_cases hc : category = call.category
    · subst hc
      cases hcond : call.condition <;>
        simp [callsTo, List.filter_cons, hcond, Nat.add_assoc, Nat.add_comm 1]
    · have hc' : ¬ call.category = category := fun h => hc h.symm
      simp [callsTo, List.filter_cons, hc, hc']

theorem callsTo_length_sum (calls : List Call) :
    (callsTo Category.preflight calls).length + (callsTo Category.tests calls).length +
      (callsTo Category.quality calls).length + (callsTo Category.reports calls).length =
      calls.length := by
  induction calls with
  | nil => simp [callsTo]
  | cons call calls ih =>
    have h : ∀ category, (callsTo category (call :: calls)).length =
        (callsTo category calls).length + if call.category = category then 1 else 0 := by
      intro category
      by_cases hc : call.category = category <;> simp [callsTo, List.filter_cons, hc]
    rw [h, h, h, h, List.length_cons, ← ih]
    cases call.category <;> simp <;> omega

theorem filter_condition_length (calls : List Call) :
    (calls.filter fun call => call.condition).length +
      (calls.filter fun call => !call.condition).length = calls.length := by
  induction calls with
  | nil => simp
  | cons call calls ih =>
    cases hcond : call.condition <;> simp [List.filter_cons, hcond] <;> omega

/-- C1: the verdict computed by `generateSummary` is READY exactly when
`totalFailed` is 0, MINOR FIXES NEEDED exactly when it is 1 or 2, and MAJOR
ISSUES exactly when it exceeds 2; `totalFailed` is the sum of the failed
counts of the four categories, and two states with the same `totalFailed`
get the same verdict. -/
theorem verdict_determined_by_totalFailed (r : Results) :
    ((generateSummary r).deliveryStatus = Verdict.ready ↔ totalFailed r = 0) ∧
    ((generateSummary r).deliveryStatus = Verdict.minorFixes ↔
      1 ≤ totalFailed r ∧ totalFailed r ≤ 2) ∧
    ((generateSummary r).deliveryStatus = Verdict.majorIssues ↔ totalFailed r > 2) ∧
    totalFailed r =
      r.preflight.failed + r.tests.failed + r.quality.failed + r.reports.failed ∧
    (generateSummary r).totalFailed = totalFailed r ∧
    ∀ r' : Results, totalFailed r' = totalFailed r →
      (generateSummary r').deliveryStatus = (generateSummary r).deliveryStatus := by
  refine ⟨?_, ?_, ?_, totalFailed_eq r, rfl, ?_⟩
  · simp only [generateSummary]
    split_ifs <;> simp_all
  · simp only [generateSummary]
    split_ifs <;> simp_all
    omega
  · simp only [generateSummary]
    split_ifs <;> simp_all
  · intro r' h
    simp only [generateSummary, h]

/-- C3: starting from the initial `results`, after any finite sequence of
`check` calls each category has `passed` equal to the number of its calls
with a true condition, `failed` equal to the number with a false condition
and `issues` equal to the messages of the false calls in call order, so that
`issues.length = failed` and `passed + failed` is the number of its calls;
and `totalPassed + totalFailed` of `generateSummary` is the number of calls. -/
theorem check_tallies_count_calls (calls : List Call) :
    (∀ category : Category,
      ((runChecks calls initialResults).get category).passed =
        ((callsTo category calls).filter fun call => call.condition).length ∧
      ((runChecks calls initialResults).get category).failed =
        ((callsTo category calls).filter fun call => !call.condition).length ∧
      ((runChecks calls initialResults).get category).issues =
        ((callsTo category calls).filter fun call => !call.condition).map Call.message ∧
      ((runChecks calls initialResults).get category).issues.length =
        ((runChecks calls initialResults).get category).failed ∧
      ((runChecks calls initialResults).get category).passed +
        ((runChecks calls initialResults).get category).failed =
        (callsTo category calls).length) ∧
    (generateSummary (runChecks calls initialResults)).totalPassed +
      (generateSummary (runChecks calls initialResults)).totalFailed = calls.length ∧
    (generateSummary (runChecks calls initialResults)).totalChecks = calls.length := by
  have key : ∀ category : Category,
      ((runChecks calls initialResults).get category).passed =
        ((callsTo category calls).filter fun call => call.condition).length ∧
      ((runChecks calls initialResults).get category).failed =
        ((callsTo category calls).filter fun call => !call.condition).length ∧
      ((runChecks calls initialResults).get category).issues =
        ((callsTo category calls).filter fun call => !call.condition).map Call.message := by
    intro category
    obtain ⟨hp, hf, hi⟩ := runChecks_get calls category initialResults
    have h0 : (initialResults.get category).passed = 0 ∧
        (initialResults.get category).failed = 0 ∧
        (initialResults.get category).issues = [] := by
      cases category <;> simp [initialResults, Results.get]
    rw [hp, hf, hi, h0.1, h0.2.1, h0.2.2]
    simp
  have total : totalPassed (runChecks calls initialResults) +
      totalFailed (runChecks calls initialResults) = calls.length := by
    rw [totalPassed_eq, totalFailed_eq, ← callsTo_length_sum calls]
    have h1 := key Category.preflight
    have h2 := key Category.tests
    have h3 := key Category.quality
    have h4 := key Category.reports
    simp only [Results.get] at h1 h2 h3 h4
    rw [h1.1, h1.2.1, h2.1, h2.2.1, h3.1, h3.2.1, h4.1, h4.2.1]
    have f1 := filter_condition_length (callsTo Category.preflight calls)
    have f2 := filter_condition_length (callsTo Category.tests calls)
    have f3 := filter_condition_length (callsTo Category.quality calls)
    have f4 := filter_condition_length (callsTo Category.reports calls)
    omega
  refine ⟨?_, total, total⟩
  intro category
  obtain ⟨hp, hf, hi⟩ := key category
  refine ⟨hp, hf, hi, ?_, ?_⟩
  · rw [hi, hf, List.length_map]
  · rw [hp, hf]
    exact filter_condition_length _

/-- C4, counterexample: over the initial state, in which no check is
recorded in any category, the success rate `generateSummary` reports is
`NaN`, not a defined 0. -/
theorem zero_checks_rate_is_NaN :
    totalPassed initialResults = 0 ∧ totalFailed initialResults = 0 ∧
    (generateSummary initialResults).successRate = SuccessRate.NaN ∧
    ∀ p t : Nat, (generateSummary initialResults).successRate ≠ SuccessRate.fixed1 p t := by
  refine ⟨by decide, by decide, by decide, ?_⟩
  intro p t h
  have hnan : (generateSummary initialResults).successRate = SuccessRate.NaN := by decide
  rw [hnan] at h
  cases h

/-- C4, amended: when no check was recorded in any category the success rate
`generateSummary` reports is the text `NaN` (the division of zero by zero is
not guarded and nothing is thrown), the verdict is READY and the exit code
is 0. -/
theorem zero_checks_summary (r : Results) (hp : totalPassed r = 0) (hf : totalFailed r = 0) :
    (generateSummary r).successRate = SuccessRate.NaN ∧
    (generateSummary r).deliveryStatus = Verdict.ready ∧
    (generateSummary r).exitCode = 0 := by
  simp [generateSummary, successRateOf, hp, hf]

theorem zero_checks_summary_witness :
    totalPassed initialResults = 0 ∧ totalFailed initialResults = 0 ∧
    (generateSummary initialResults).successRate = SuccessRate.NaN ∧
    (generateSummary initialResults).deliveryStatus = Verdict.ready ∧
    (generateSummary initialResults).exitCode = 0 :=
  ⟨by decide, by decide, zero_checks_summary initialResults (by decide) (by decide)⟩

/-! ## Main execution -/

theorem main_cases (env : Env) (cwd : String) :
    (∃ st : State, main env cwd = RunResult.summarised st (generateSummary st.results)) ∨
    main env cwd = RunResult.caught Phase.validateCodeQuality ∨
    main env cwd = RunResult.caught Phase.validateReports := by
  simp only [main]
  generalize validateCodeQuality env _ = quality
  cases quality with
  | none => exact Or.inr (Or.inl rfl)
  | some st =>
    cases hr : validateReports env st with
    | none => exact Or.inr (Or.inr (by simp only [hr]))
    | some st' => exact Or.inl ⟨st', by simp only [hr]⟩

theorem totalFailed_zero_get (r : Results) (h : totalFailed r = 0) (category : Category) :
    (r.get category).failed = 0 := by
  rw [totalFailed_eq] at h
  cases category <;> simp only [Results.get] <;> omega

/-- C2: for every run of `main` the exit code is 0 exactly when the four
phases returned, `generateSummary` ran and `totalFailed` is 0, in which case
no category has a failed check; otherwise it is 1, both when the summary ran
with at least one failed check and when an error escaped a phase and was
caught at the top level. -/
theorem exit_code_zero_iff (env : Env) (cwd : String) :
    ((main env cwd).exitCode = 0 ↔
      ∃ st : State, main env cwd = RunResult.summarised st (generateSummary st.results) ∧
        totalFailed st.results = 0 ∧
        ∀ category : Category, (st.results.get category).failed = 0) ∧
    ((main env cwd).exitCode ≠ 0 → (main env cwd).exitCode = 1) ∧
    (∀ st : State, main env cwd = RunResult.summarised st (generateSummary st.results) →
      totalFailed st.results ≥ 1 → (main env cwd).exitCode = 1) ∧
    (∀ phase : Phase, main env cwd = RunResult.caught phase → (main env cwd).exitCode = 1) ∧
    ((∃ st : State, main env cwd = RunResult.summarised st (generateSummary st.results)) ∨
      ∃ phase : Phase, main env cwd = RunResult.caught phase) := by
  rcases main_cases env cwd with ⟨st, h⟩ | h | h
  · rw [h]
    refine ⟨⟨fun h0 => ⟨st, rfl, ?_, ?_⟩, ?_⟩, ?_, ?_, ?_, Or.inl ⟨st, rfl⟩⟩
    · by_contra hne
      simp [RunResult.exitCode, generateSummary, hne] at h0
    · apply totalFailed_zero_get
      by_contra hne
      simp [RunResult.exitCode, generateSummary, hne] at h0
    · rintro ⟨st2, heq, h0, -⟩
      injection heq with h1 h2
      subst h1
      simp [RunResult.exitCode, generateSummary, h0]
    · intro hne
      simp only [RunResult.exitCode, generateSummary] at hne ⊢
      split_ifs at hne ⊢ <;> simp_all
    · intro st2 heq hge
      injection heq with h1 h2
      subst h1
      have hne : totalFailed st.results ≠ 0 := by omega
      simp [RunResult.exitCode, generateSummary, hne]
    · intro phase hc
      cases hc
  · rw [h]
    simp [RunResult.exitCode]
  · rw [h]
    simp [RunResult.exitCode]

/-! ## String primitives against prefixes, suffixes and infixes -/

theorem startsWith_iff (s p : Str) : startsWith s p = true ↔ p <+: s := by
  induction s generalizing p with
  | nil => cases p <;> simp [startsWith]
  | cons c s ih =>
    cases p with
    | nil => simp [startsWith]
    | cons d p =>
      simp only [startsWith, Bool.and_eq_true, beq_iff_eq, ih, List.cons_prefix_cons]
      constructor
      · rintro ⟨h1, h2⟩
        exact ⟨h1.symm, h2⟩
      · rintro ⟨h1, h2⟩
        exact ⟨h1.symm, h2⟩

theorem endsWith_iff (s p : Str) : endsWith s p = true ↔ p <:+ s := by
  rw [endsWith, startsWith_iff, List.reverse_prefix]

theorem includes_iff (s p : Str) : includes s p = true ↔ p <:+: s := by
  induction s with
  | nil =>
    rw [includes, startsWith_iff]
    simp
  | cons c s ih =>
    rw [includes, Bool.or_eq_true, startsWith_iff, ih, List.infix_cons_iff]

theorem descends_iff (name : Str) : descends name = true ↔ ¬ SkippedName name := by
  have h : startsWith name ".".toList = true ↔ ['.'] <+: name := startsWith_iff name _
  simp only [descends, SkippedName, Bool.and_eq_true, Bool.not_eq_true', bne_iff_ne, ne_eq,
    not_or]
  constructor
  · rintro ⟨h1, h2⟩
    refine ⟨fun hp => ?_, h2⟩
    rw [h.2 hp] at h1
    cases h1
  · rintro ⟨h1, h2⟩
    refine ⟨?_, h2⟩
    cases hs : startsWith name ".".toList
    · rfl
    · exact absurd (h.1 hs) h1

theorem hasSourceExtension_iff (name : Str) :
    hasSourceExtension name = true ↔ SourceName name := by
  simp only [hasSourceExtension, SourceName, Bool.or_eq_true, endsWith_iff]


/-! ## The three walkers -/

mutual
theorem ancestors_of_filesUnder :
    ∀ (root : Option (List Node)) (dir : Str) (ancestors : List Str) (f : FileEntry),
      f ∈ filesUnder dir ancestors root → ∀ a ∈ ancestors, a ∈ f.ancestors
  | none, dir, ancestors, f, h => by simp [filesUnder] at h
  | some files, dir, ancestors, f, h => by
    rw [filesUnder] at h
    exact ancestors_of_filesAmong files dir ancestors f h
theorem ancestors_of_filesAmong :
    ∀ (files : List Node) (dir : Str) (ancestors : List Str) (f : FileEntry),
      f ∈ filesAmong dir ancestors files → ∀ a ∈ ancestors, a ∈ f.ancestors
  | [], dir, ancestors, f, h => by simp [filesAmong] at h
  | file :: rest, dir, ancestors, f, h => by
    rw [filesAmong, List.mem_append] at h
    rcases h with h | h
    · exact ancestors_of_filesOf file dir ancestors f h
    · exact ancestors_of_filesAmong rest dir ancestors f h
theorem ancestors_of_filesOf :
    ∀ (file : Node) (dir : Str) (ancestors : List Str) (f : FileEntry),
      f ∈ filesOf dir ancestors file → ∀ a ∈ ancestors, a ∈ f.ancestors
  | Node.file name content, dir, ancestors, f, h => by
    rw [filesOf, List.mem_singleton] at h
    intro a ha
    rw [h]
    exact ha
  | Node.dir name entries, dir, ancestors, f, h => by
    rw [filesOf] at h
    intro a ha
    exact ancestors_of_filesUnder entries (pathJoin dir name) (ancestors ++ [name]) f h a
      (List.mem_append_left _ ha)
end

theorem visit_file (dir name : Str) (ancestors : List Str) (content : Option Str)
    (hanc : ∀ a ∈ ancestors, ¬ SkippedName a) :
    FileEntry.visit
        { path := pathJoin dir name, name := name, ancestors := ancestors, content := content } =
      if hasSourceExtension name then content.map fun c => (pathJoin dir name, c) else none := by
  unfold FileEntry.visit
  by_cases h : hasSourceExtension name = true
  · have hs : SourceName name := (hasSourceExtension_iff name).1 h
    simp only [h, if_true]
    rw [if_pos ⟨hs, hanc⟩]
  · have hs : ¬ SourceName name := fun hs => h ((hasSourceExtension_iff name).2 hs)
    simp only [h]
    rw [if_neg (fun hh => hs hh.1)]
    rfl

theorem visit_beneath_skipped (root : Option (List Node)) (dir name : Str)
    (ancestors : List Str) (hskip : SkippedName name) :
    (filesUnder dir (ancestors ++ [name]) root).filterMap FileEntry.visit = [] := by
  rw [List.filterMap_eq_nil_iff]
  intro f hf
  have hmem : name ∈ f.ancestors :=
    ancestors_of_filesUnder root dir (ancestors ++ [name]) f hf name (by simp)
  unfold FileEntry.visit
  rw [if_neg]
  rintro ⟨-, hall⟩
  exact hall name hmem hskip

theorem not_skipped_append (ancestors : List Str) (name : Str)
    (hanc : ∀ a ∈ ancestors, ¬ SkippedName a) (hname : ¬ SkippedName name) :
    ∀ a ∈ ancestors ++ [name], ¬ SkippedName a := by
  intro a ha
  rw [List.mem_append, List.mem_singleton] at ha
  rcases ha with ha | ha
  · exact hanc a ha
  · rw [ha]
    exact hname

theorem scanLines_acc (fullPath : Str) (lines : List Str) (index : Nat) (acc : List Str) :
    scanLines fullPath lines index acc = acc ++ scanLines fullPath lines index [] := by
  induction lines generalizing index acc with
  | nil => simp [scanLines]
  | cons line rest ih =>
    rw [scanLines, ih, scanLines, ih (index + 1) (if flagsConsoleLog line then _ else _)]
    split_ifs <;> simp

theorem scanContent_acc (fullPath content : Str) (acc : List Str) :
    scanContent fullPath content acc = acc ++ scanContent fullPath content [] :=
  scanLines_acc _ _ _ _

theorem findConsoleLogsFile_file (dir name : Str) (content : Option Str) (acc : List Str) :
    findConsoleLogsFile dir (Node.file name content) acc =
      if hasSourceExtension name then
        match content with
        | none => some acc
        | some content => some (scanContent (pathJoin dir name) content acc)
      else some acc := by
  cases content <;> rfl

theorem findConsoleLogsFile_dir (dir name : Str) (entries : Option (List Node))
    (acc : List Str) :
    findConsoleLogsFile dir (Node.dir name entries) acc =
      if descends name then
        match findConsoleLogs (pathJoin dir name) entries with
        | none => none
        | some found => some (acc ++ found)
      else some acc := by
  cases entries <;> rfl

mutual
theorem findConsoleLogs_visits :
    ∀ (root : Option (List Node)) (dir : Str) (ancestors : List Str),
      (∀ a ∈ ancestors, ¬ SkippedName a) → listable root = true →
      findConsoleLogs dir root =
        some (((filesUnder dir ancestors root).filterMap FileEntry.visit).flatMap fun f =>
          scanContent f.1 f.2 [])
  | none, dir, ancestors, _, hl => by simp [listable] at hl
  | some files, dir, ancestors, hanc, hl => by
    rw [listable] at hl
    rw [findConsoleLogs, filesUnder, findConsoleLogsEach_visits files dir ancestors [] hanc hl]
    simp
theorem findConsoleLogsEach_visits :
    ∀ (files : List Node) (dir : Str) (ancestors : List Str) (acc : List Str),
      (∀ a ∈ ancestors, ¬ SkippedName a) → listableEach files = true →
      findConsoleLogsEach dir files acc =
        some (acc ++ ((filesAmong dir ancestors files).filterMap FileEntry.visit).flatMap fun f =>
          scanContent f.1 f.2 [])
  | [], dir, ancestors, acc, _, _ => by simp [findConsoleLogsEach, filesAmong]
  | file :: rest, dir, ancestors, acc, hanc, hl => by
    rw [listableEach, Bool.and_eq_true] at hl
    rw [findConsoleLogsEach, filesAmong, List.filterMap_append,
      findConsoleLogsFile_visits file dir ancestors acc hanc hl.1]
    simp only
    rw [findConsoleLogsEach_visits rest dir ancestors _ hanc hl.2]
    simp
theorem findConsoleLogsFile_visits :
    ∀ (file : Node) (dir : Str) (ancestors : List Str) (acc : List Str),
      (∀ a ∈ ancestors, ¬ SkippedName a) → listableFile file = true →
      findConsoleLogsFile dir file acc =
        some (acc ++ ((filesOf dir ancestors file).filterMap FileEntry.visit).flatMap fun f =>
          scanContent f.1 f.2 [])
  | Node.file name content, dir, ancestors, acc, hanc, _ => by
    rw [findConsoleLogsFile_file, filesOf, List.filterMap_cons,
      visit_file dir name ancestors content hanc]
    by_cases hext : hasSourceExtension name = true
    · cases content with
      | none => simp [hext]
      | some c =>
        simp only [hext, if_true, Option.map_some']
        rw [scanContent_acc]
        simp
    · simp [hext]
  | Node.dir name entries, dir, ancestors, acc, hanc, hl => by
    rw [listableFile, Bool.or_eq_true, decide_eq_true_iff] at hl
    rw [findConsoleLogsFile_dir, filesOf]
    by_cases hd : descends name = true
    · have hname : ¬ SkippedName name := (descends_iff name).1 hd
      have hle : listable entries = true := hl.resolve_left hname
      simp only [hd, if_true]
      rw [findConsoleLogs_visits entries (pathJoin dir name) (ancestors ++ [name])
        (not_skipped_append ancestors name hanc hname) hle]
    · have hname : SkippedName name := by
        by_contra hn
        exact hd ((descends_iff name).2 hn)
      simp only [hd]
      rw [visit_beneath_skipped entries (pathJoin dir name) name ancestors hname]
      simp
end

theorem scanCreds_eq (fullPath content : Str) (patterns : List Pattern) (acc : List Str) :
    scanCreds fullPath content patterns acc =
      acc ++ List.replicate (patterns.filter fun pattern => pattern.test content).length
        fullPath := by
  induction patterns generalizing acc with
  | nil => simp [scanCreds]
  | cons pattern rest ih =>
    rw [scanCreds, ih]
    cases h : pattern.test content <;> simp [List.filter_cons, h, List.replicate_succ]

theorem scanCreds_acc (fullPath content : Str) (acc : List Str) :
    scanCreds fullPath content credPatterns acc =
      acc ++ scanCreds fullPath content credPatterns [] := by
  rw [scanCreds_eq, scanCreds_eq fullPath content credPatterns []]
  simp

theorem findHardcodedCredsFile_file (dir name : Str) (content : Option Str) (acc : List Str) :
    findHardcodedCredsFile dir (Node.file name content) acc =
      if hasSourceExtension name then
        match content with
        | none => some acc
        | some content => some (scanCreds (pathJoin dir name) content credPatterns acc)
      else some acc := by
  cases content <;> rfl

theorem findHardcodedCredsFile_dir (dir name : Str) (entries : Option (List Node))
    (acc : List Str) :
    findHardcodedCredsFile dir (Node.dir name entries) acc =
      if descends name then
        match findHardcodedCreds (pathJoin dir name) entries with
        | none => none
        | some found => some (acc ++ found)
      else some acc := by
  cases entries <;> rfl

mutual
theorem findHardcodedCreds_visits :
    ∀ (root : Option (List Node)) (dir : Str) (ancestors : List Str),
      (∀ a ∈ ancestors, ¬ SkippedName a) → listable root = true →
      findHardcodedCreds dir root =
        some (((filesUnder dir ancestors root).filterMap FileEntry.visit).flatMap fun f =>
          scanCreds f.1 f.2 credPatterns [])
  | none, dir, ancestors, _, hl => by simp [listable] at hl
  | some files, dir, ancestors, hanc, hl => by
    rw [listable] at hl
    rw [findHardcodedCreds, filesUnder,
      findHardcodedCredsEach_visits files dir ancestors [] hanc hl]
    simp
theorem findHardcodedCredsEach_visits :
    ∀ (files : List Node) (dir : Str) (ancestors : List Str) (acc : List Str),
      (∀ a ∈ ancestors, ¬ SkippedName a) → listableEach files = true →
      findHardcodedCredsEach dir files acc =
        some (acc ++ ((filesAmong dir ancestors files).filterMap FileEntry.visit).flatMap fun f =>
          scanCreds f.1 f.2 credPatterns [])
  | [], dir, ancestors, acc, _, _ => by simp [findHardcodedCredsEach, filesAmong]
  | file :: rest, dir, ancestors, acc, hanc, hl => by
    rw [listableEach, Bool.and_eq_true] at hl
    rw [findHardcodedCredsEach, filesAmong, List.filterMap_append,
      findHardcodedCredsFile_visits file dir ancestors acc hanc hl.1]
    simp only
    rw [findHardcodedCredsEach_visits rest dir ancestors _ hanc hl.2]
    simp
theorem findHardcodedCredsFile_visits :
    ∀ (file : Node) (dir : Str) (ancestors : List Str) (acc : List Str),
      (∀ a ∈ ancestors, ¬ SkippedName a) → listableFile file = true →
      findHardcodedCredsFile dir file acc =
        some (acc ++ ((filesOf dir ancestors file).filterMap FileEntry.visit).flatMap fun f =>
          scanCreds f.1 f.2 credPatterns [])
  | Node.file name content, dir, ancestors, acc, hanc, _ => by
    rw [findHardcodedCredsFile_file, filesOf, List.filterMap_cons,
      visit_file dir name ancestors content hanc]
    by_cases hext : hasSourceExtension name = true
    · cases content with
      | none => simp [hext]
      | some c =>
        simp only [hext, if_true, Option.map_some']
        rw [scanCreds_acc]
        simp
    · simp [hext]
  | Node.dir name entries, dir, ancestors, acc, hanc, hl => by
    rw [listableFile, Bool.or_eq_true, decide_eq_true_iff] at hl
    rw [findHardcodedCredsFile_dir, filesOf]
    by_cases hd : descends name = true
    · have hname : ¬ SkippedName name := (descends_iff name).1 hd
      have hle : listable entries = true := hl.resolve_left hname
      simp only [hd, if_true]
      rw [findHardcodedCreds_visits entries (pathJoin dir name) (ancestors ++ [name])
        (not_skipped_append ancestors name hanc hname) hle]
    · have hname : SkippedName name := by
        by_contra hn
        exact hd ((descends_iff name).2 hn)
      simp only [hd]
      rw [visit_beneath_skipped entries (pathJoin dir name) name ancestors hname]
      simp
end

theorem add_zero_tally (a : ErrorHandling) :
    a.add { good := 0, needsImprovement := 0 } = a := by
  cases a
  simp [ErrorHandling.add]

theorem zero_add_tally (a : ErrorHandling) :
    ErrorHandling.add { good := 0, needsImprovement := 0 } a = a := by
  cases a
  simp [ErrorHandling.add]

theorem add_assoc_tally (a b c : ErrorHandling) : (a.add b).add c = a.add (b.add c) := by
  simp [ErrorHandling.add, Nat.add_assoc]

theorem tallyOf_nil : tallyOf [] = { good := 0, needsImprovement := 0 } := rfl

theorem tallyOf_append (xs ys : List (Str × Str)) :
    tallyOf (xs ++ ys) = (tallyOf xs).add (tallyOf ys) := by
  simp [tallyOf, ErrorHandling.add]

theorem classify_eq (path content : Str) (acc : ErrorHandling) :
    classify content acc = acc.add (tallyOf [(path, content)]) := by
  have ht := includes_iff content "try".toList
  have hc := includes_iff content "catch".toList
  have ha := includes_iff content "await".toList
  have hp := includes_iff content "Promise".toList
  by_cases hgood : Good content
  · have h1 : includes content "try".toList = true := ht.2 hgood.1
    have h2 : includes content "catch".toList = true := hc.2 hgood.2
    have hni : ¬ NeedsImprovement content := fun h => h.1 hgood
    have h12 : (includes content "try".toList && includes content "catch".toList) = true := by
      rw [h1, h2]
      rfl
    simp only [classify, h12]
    simp [tallyOf, hgood, hni, ErrorHandling.add, List.filter_cons]
  · have h12 : (includes content "try".toList && includes content "catch".toList) = false := by
      rw [Bool.and_eq_false_iff]
      by_contra hcon
      rw [not_or, Bool.not_eq_false, Bool.not_eq_false] at hcon
      exact hgood ⟨ht.1 hcon.1, hc.1 hcon.2⟩
    by_cases hni : NeedsImprovement content
    · have h3 : (includes content "await".toList || includes content "Promise".toList) =
          true := by
        rw [Bool.or_eq_true, ha, hp]
        exact hni.2
      simp only [classify, h12, h3]
      simp [tallyOf, hgood, hni, ErrorHandling.add, List.filter_cons]
    · have h3 : (includes content "await".toList || includes content "Promise".toList) =
          false := by
        rw [Bool.or_eq_false_iff]
        constructor
        · by_contra hcon
          rw [Bool.not_eq_false] at hcon
          exact hni ⟨hgood, Or.inl (ha.1 hcon)⟩
        · by_contra hcon
          rw [Bool.not_eq_false] at hcon
          exact hni ⟨hgood, Or.inr (hp.1 hcon)⟩
      simp only [classify, h12, h3]
      simp [tallyOf, hgood, hni, ErrorHandling.add, List.filter_cons]

theorem findErrorHandlingFile_file (dir name : Str) (content : Option Str)
    (acc : ErrorHandling) :
    findErrorHandlingFile dir (Node.file name content) acc =
      if hasSourceExtension name then
        match content with
        | none => some acc
        | some content => some (classify content acc)
      else some acc := by
  cases content <;> rfl

theorem findErrorHandlingFile_dir (dir name : Str) (entries : Option (List Node))
    (acc : ErrorHandling) :
    findErrorHandlingFile dir (Node.dir name entries) acc =
      if descends name then
        match findErrorHandling (pathJoin dir name) entries with
        | none => none
        | some subResult => some (acc.add subResult)
      else some acc := by
  cases entries <;> rfl

mutual
theorem findErrorHandling_visits :
    ∀ (root : Option (List Node)) (dir : Str) (ancestors : List Str),
      (∀ a ∈ ancestors, ¬ SkippedName a) → listable root = true →
      findErrorHandling dir root =
        some (tallyOf ((filesUnder dir ancestors root).filterMap FileEntry.visit))
  | none, dir, ancestors, _, hl => by simp [listable] at hl
  | some files, dir, ancestors, hanc, hl => by
    rw [listable] at hl
    rw [findErrorHandling, filesUnder,
      findErrorHandlingEach_visits files dir ancestors _ hanc hl, zero_add_tally]
theorem findErrorHandlingEach_visits :
    ∀ (files : List Node) (dir : Str) (ancestors : List Str) (acc : ErrorHandling),
      (∀ a ∈ ancestors, ¬ SkippedName a) → listableEach files = true →
      findErrorHandlingEach dir files acc =
        some (acc.add (tallyOf ((filesAmong dir ancestors files).filterMap FileEntry.visit)))
  | [], dir, ancestors, acc, _, _ => by
    simp [findErrorHandlingEach, filesAmong, tallyOf_nil, add_zero_tally]
  | file :: rest, dir, ancestors, acc, hanc, hl => by
    rw [listableEach, Bool.and_eq_true] at hl
    rw [findErrorHandlingEach, filesAmong, List.filterMap_append,
      findErrorHandlingFile_visits file dir ancestors acc hanc hl.1]
    simp only
    rw [findErrorHandlingEach_visits rest dir ancestors _ hanc hl.2, tallyOf_append,
      add_assoc_tally]
theorem findErrorHandlingFile_visits :
    ∀ (file : Node) (dir : Str) (ancestors : List Str) (acc : ErrorHandling),
      (∀ a ∈ ancestors, ¬ SkippedName a) → listableFile file = true →
      findErrorHandlingFile dir file acc =
        some (acc.add (tallyOf ((filesOf dir ancestors file).filterMap FileEntry.visit)))
  | Node.file name content, dir, ancestors, acc, hanc, _ => by
    rw [findErrorHandlingFile_file, filesOf, List.filterMap_cons,
      visit_file dir name ancestors content hanc]
    by_cases hext : hasSourceExtension name = true
    · cases content with
      | none => simp [hext, tallyOf_nil, add_zero_tally]
      | some c =>
        simp only [hext, if_true, Option.map_some', List.filterMap_nil]
        rw [classify_eq (pathJoin dir name)]
    · simp [hext, tallyOf_nil, add_zero_tally]
  | Node.dir name entries, dir, ancestors, acc, hanc, hl => by
    rw [listableFile, Bool.or_eq_true, decide_eq_true_iff] at hl
    rw [findErrorHandlingFile_dir, filesOf]
    by_cases hd : descends name = true
    · have hname : ¬ SkippedName name := (descends_iff name).1 hd
      have hle : listable entries = true := hl.resolve_left hname
      simp only [hd, if_true]
      rw [findErrorHandling_visits entries (pathJoin dir name) (ancestors ++ [name])
        (not_skipped_append ancestors name hanc hname) hle]
    · have hname : SkippedName name := by
        by_contra hn
        exact hd ((descends_iff name).2 hn)
      simp only [hd]
      rw [visit_beneath_skipped entries (pathJoin dir name) name ancestors hname]
      simp [tallyOf_nil, add_zero_tally]
end

theorem foldl_classify (files : List (Str × Str)) (acc : ErrorHandling) :
    files.foldl (fun tally f => classify f.2 tally) acc = acc.add (tallyOf files) := by
  induction files generalizing acc with
  | nil => rw [List.foldl_nil, tallyOf_nil, add_zero_tally]
  | cons f rest ih =>
    rw [List.foldl_cons, ih, classify_eq f.1, add_assoc_tally, ← tallyOf_append]
    rfl

theorem mem_visitedFiles (dir : Str) (root : Option (List Node)) (pc : Str × Str) :
    pc ∈ visitedFiles dir root ↔
      ∃ f ∈ filesUnder dir [] root, SourceName f.name ∧ (∀ a ∈ f.ancestors, ¬ SkippedName a) ∧
        f.content = some pc.2 ∧ f.path = pc.1 := by
  unfold visitedFiles
  rw [List.mem_filterMap]
  constructor
  · rintro ⟨f, hf, hv⟩
    refine ⟨f, hf, ?_⟩
    unfold FileEntry.visit at hv
    split_ifs at hv with h
    cases hc : f.content with
    | none => rw [hc] at hv; cases hv
    | some c =>
      rw [hc] at hv
      simp only [Option.map_some', Option.some.injEq] at hv
      subst hv
      exact ⟨h.1, h.2, rfl, rfl⟩
  · rintro ⟨f, hf, hs, ha, hc, hp⟩
    refine ⟨f, hf, ?_⟩
    unfold FileEntry.visit
    rw [if_pos ⟨hs, ha⟩, hc, hp]
    rfl

set_option maxRecDepth 100000 in
/-- C6, counterexample: in the tree with the files `a.ts` and `z.ts` and
between them the directory `locked`, which is not skipped and cannot be
listed, both files have to be visited, yet each of the three walkers ends
with the thrown error and returns no result, so no detector result for
`z.ts` is produced. -/
theorem locked_directory_ends_each_walk :
    visitedFiles "ui-tests".toList (some treeWithLockedDirectory) =
      [ ("ui-tests/a.ts".toList, "console.log(a)".toList),
        ("ui-tests/z.ts".toList, "const token = \"t\"\nawait console.log(z)".toList) ] ∧
    findConsoleLogs "ui-tests".toList (some treeWithLockedDirectory) = none ∧
    findHardcodedCreds "ui-tests".toList (some treeWithLockedDirectory) = none ∧
    findErrorHandling "ui-tests".toList (some treeWithLockedDirectory) = none ∧
    listable (some treeWithLockedDirectory) = false := by
  decide

/-- C6, amended: in a tree whose entered directories can all be listed, each of the
three walkers returns the result of applying its detector, in depth-first
listing order, once to each file that has an allowed extension, is readable
and has no skipped directory among its ancestors below the root, and to no
other file; the visited files are exactly the entries of the tree with these
three properties, so a file beneath a hidden or `node_modules` directory and
an unreadable file contribute nothing and do not stop the walk. -/
theorem walkers_visit_each_eligible_file_once (dir : Str) (root : Option (List Node))
    (hroot : listable root = true) :
    findConsoleLogs dir root =
      some ((visitedFiles dir root).flatMap fun f => scanContent f.1 f.2 []) ∧
    findHardcodedCreds dir root =
      some ((visitedFiles dir root).flatMap fun f => scanCreds f.1 f.2 credPatterns []) ∧
    findErrorHandling dir root =
      some ((visitedFiles dir root).foldl (fun tally f => classify f.2 tally)
        { good := 0, needsImprovement := 0 }) ∧
    visitedFiles dir root = (filesUnder dir [] root).filterMap FileEntry.visit ∧
    ∀ pc : Str × Str, pc ∈ visitedFiles dir root ↔
      ∃ f ∈ filesUnder dir [] root, SourceName f.name ∧ (∀ a ∈ f.ancestors, ¬ SkippedName a) ∧
        f.content = some pc.2 ∧ f.path = pc.1 := by
  have hnil : ∀ a ∈ ([] : List Str), ¬ SkippedName a := fun a ha => by cases ha
  refine ⟨findConsoleLogs_visits root dir [] hnil hroot,
    findHardcodedCreds_visits root dir [] hnil hroot, ?_, rfl, mem_visitedFiles dir root⟩
  rw [findErrorHandling_visits root dir [] hnil hroot, foldl_classify, zero_add_tally]
  rfl

set_option maxRecDepth 100000 in
theorem walkers_visit_each_eligible_file_once_witness :
    listable (some sampleTree) = true ∧
    visitedFiles "ui-tests".toList (some sampleTree) =
      [ ("ui-tests/app.ts".toList, "a\nb\nconsole.log(x)\nc\n// console.log(y)".toList),
        ("ui-tests/src/login.js".toList,
          "const password = \"abc123\"\nawait signIn(password)".toList),
        ("ui-tests/src/safe.ts".toList, "try\n  await run()\ncatch (e)".toList) ] ∧
    findConsoleLogs "ui-tests".toList (some sampleTree) = some ["ui-tests/app.ts:3".toList] ∧
    findHardcodedCreds "ui-tests".toList (some sampleTree) =
      some ["ui-tests/src/login.js".toList] ∧
    findErrorHandling "ui-tests".toList (some sampleTree) =
      some { good := 1, needsImprovement := 1 } := by
  have h := walkers_visit_each_eligible_file_once "ui-tests".toList (some sampleTree)
    (by decide)
  refine ⟨by decide, by decide, ?_, ?_, ?_⟩
  · rw [h.1]; decide
  · rw [h.2.1]; decide
  · rw [h.2.2.1]; decide

theorem unlistable_directory_stops_walk (dir name : Str) (rest : List Node)
    (h : ¬ SkippedName name) :
    findConsoleLogs dir (some (Node.dir name none :: rest)) = none ∧
    findHardcodedCreds dir (some (Node.dir name none :: rest)) = none ∧
    findErrorHandling dir (some (Node.dir name none :: rest)) = none := by
  have hd : descends name = true := (descends_iff name).2 h
  refine ⟨?_, ?_, ?_⟩
  · rw [findConsoleLogs, findConsoleLogsEach, findConsoleLogsFile_dir, if_pos hd]
    rfl
  · rw [findHardcodedCreds, findHardcodedCredsEach, findHardcodedCredsFile_dir, if_pos hd]
    rfl
  · rw [findErrorHandling, findErrorHandlingEach, findErrorHandlingFile_dir, if_pos hd]
    rfl

/-! ## The console statement finder -/

theorem split_ne_nil (sep : Char) (s : Str) : split sep s ≠ [] := by
  cases s with
  | nil => simp [split]
  | cons c s =>
    rw [split]
    split_ifs
    · simp
    · split <;> simp

theorem split_join (sep : Char) (s : Str) : [sep].intercalate (split sep s) = s := by
  induction s with
  | nil => rfl
  | cons c s ih =>
    rw [split]
    split_ifs with h
    · cases hs : split sep s with
      | nil => exact absurd hs (split_ne_nil sep s)
      | cons l ls =>
        rw [hs] at ih
        rw [h, ← ih]
        simp [List.intercalate]
    · cases hs : split sep s with
      | nil => exact absurd hs (split_ne_nil sep s)
      | cons l ls =>
        rw [hs] at ih
        simp only
        rw [← ih]
        cases ls <;> simp [List.intercalate]

theorem split_no_sep (sep : Char) (s : Str) : ∀ l ∈ split sep s, sep ∉ l := by
  induction s with
  | nil => simp [split]
  | cons c s ih =>
    rw [split]
    split_ifs with h
    · intro l hl
      rw [List.mem_cons] at hl
      rcases hl with hl | hl
      · rw [hl]; simp
      · exact ih l hl
    · cases hs : split sep s with
      | nil => exact absurd hs (split_ne_nil sep s)
      | cons l0 ls =>
        rw [hs] at ih
        simp only
        intro l hl
        rw [List.mem_cons] at hl
        rcases hl with hl | hl
        · rw [hl, List.mem_cons, not_or]
          exact ⟨fun h' => h h'.symm, ih l0 (List.mem_cons_self _ _)⟩
        · exact ih l (List.mem_cons_of_mem _ hl)

theorem flagsConsoleLog_eq (line : Str) : flagsConsoleLog line = decide (Flagged line) := by
  have h1 := includes_iff line "console.log".toList
  have h2 := startsWith_iff (trim line) "//".toList
  by_cases hf : Flagged line
  · rw [decide_eq_true hf]
    have hs : startsWith (trim line) "//".toList = false := by
      cases hst : startsWith (trim line) "//".toList
      · rfl
      · exact absurd (h2.1 hst) hf.2
    rw [flagsConsoleLog, h1.2 hf.1, hs]
    rfl
  · rw [decide_eq_false hf]
    cases hinc : includes line "console.log".toList
    · rw [flagsConsoleLog, hinc]
      rfl
    · cases hst : startsWith (trim line) "//".toList
      · exact absurd ⟨h1.1 hinc, fun hp => by rw [h2.2 hp] at hst; cases hst⟩ hf
      · rw [flagsConsoleLog, hinc, hst]
        rfl

theorem scanLines_eq (path : Str) (lines : List Str) (index : Nat) :
    scanLines path lines index [] =
      ((lines.enumFrom index).filter fun il => decide (Flagged il.2)).map fun il =>
        path ++ ':' :: natToStr (il.1 + 1) := by
  induction lines generalizing index with
  | nil => rfl
  | cons line rest ih =>
    rw [scanLines, scanLines_acc, ih, List.enumFrom_cons, List.filter_cons, flagsConsoleLog_eq]
    by_cases hf : Flagged line
    · simp [hf]
    · simp [hf]

theorem scanContent_eq (path content : Str) :
    scanContent path content [] = expectedConsoleLogs path content := by
  rw [scanContent, scanLines_eq, expectedConsoleLogs, flaggedLineNumbers, List.map_map]
  rfl

theorem pairwise_enumFrom {α : Type} (l : List α) (n : Nat) :
    (l.enumFrom n).Pairwise fun a b => a.1 < b.1 := by
  induction l generalizing n with
  | nil => exact List.Pairwise.nil
  | cons x xs ih =>
    rw [List.enumFrom_cons, List.pairwise_cons]
    refine ⟨fun b hb => ?_, ih (n + 1)⟩
    have := List.le_fst_of_mem_enumFrom hb
    exact Nat.lt_of_succ_le this

theorem flaggedLineNumbers_increasing (content : Str) :
    (flaggedLineNumbers content).Pairwise fun i j => i < j := by
  unfold flaggedLineNumbers
  rw [List.pairwise_map]
  refine List.Pairwise.imp ?_ (List.Pairwise.filter _ (pairwise_enumFrom _ 0))
  intro a b hab
  exact Nat.succ_lt_succ hab

theorem mem_flaggedLineNumbers (content : Str) (i : Nat) :
    i ∈ flaggedLineNumbers content ↔
      1 ≤ i ∧ ∃ line, (split (Char.ofNat 10) content)[i - 1]? = some line ∧ Flagged line := by
  unfold flaggedLineNumbers
  rw [List.mem_map]
  constructor
  · rintro ⟨⟨j, line⟩, hmem, rfl⟩
    rw [List.mem_filter, List.mem_enum_iff_getElem?, decide_eq_true_iff] at hmem
    exact ⟨Nat.succ_le_succ (Nat.zero_le _), line, by simpa using hmem.1, hmem.2⟩
  · rintro ⟨hi, line, hget, hf⟩
    refine ⟨(i - 1, line), ?_, by simp; omega⟩
    rw [List.mem_filter, List.mem_enum_iff_getElem?, decide_eq_true_iff]
    exact ⟨hget, hf⟩

theorem check_quality (condition : Bool) (message : String) (r : Results) :
    ((check condition message Category.quality r).quality.passed = r.quality.passed + 1 ↔
      condition = true) ∧
    ((check condition message Category.quality r).quality.failed = r.quality.failed + 1 ↔
      condition = false) := by
  cases condition <;> simp [check, Results.get, Results.set]

/-- C7: for a file with path `p` and content `c` the console statement finder
appends exactly the entries `p:i`, in increasing `i`, for the 1-based numbers
`i` of the lines of `c` that contain `console.log` and, trimmed, do not start
with `//`, the lines being the pieces of `c` between line feeds (joined by
line feeds they give `c` back and none contains a line feed); a content with
`console.log(x)` on line 3 and `// console.log(y)` on line 5 gives `[p:3]`;
and over a listable tree the console check is recorded as passed exactly when
the entries of all visited files together are empty. -/
theorem console_finder_reports_flagged_lines (env : Env) (st : State) (path content : Str)
    (acc : List Str) (hroot : listable (env.readdirSync st.cwd "ui-tests") = true) :
    scanContent path content acc =
      acc ++ (flaggedLineNumbers content).map (fun i => path ++ ':' :: natToStr i) ∧
    (∀ i : Nat, i ∈ flaggedLineNumbers content ↔
      1 ≤ i ∧ ∃ line, (split (Char.ofNat 10) content)[i - 1]? = some line ∧
        "console.log".toList <:+: line ∧ ¬ "//".toList <+: trim line) ∧
    (flaggedLineNumbers content).Pairwise (fun i j => i < j) ∧
    [Char.ofNat 10].intercalate (split (Char.ofNat 10) content) = content ∧
    (∀ line ∈ split (Char.ofNat 10) content, Char.ofNat 10 ∉ line) ∧
    scanContent path "a\nb\nconsole.log(x)\nc\n// console.log(y)".toList [] =
      [path ++ ":3".toList] ∧
    ∃ st' : State, checkConsoleLogs env st = some st' ∧
      (st'.results.quality.passed = st.results.quality.passed + 1 ↔
        ((visitedFiles "ui-tests".toList (env.readdirSync st.cwd "ui-tests")).flatMap fun f =>
          expectedConsoleLogs f.1 f.2) = []) ∧
      (st'.results.quality.failed = st.results.quality.failed + 1 ↔
        ((visitedFiles "ui-tests".toList (env.readdirSync st.cwd "ui-tests")).flatMap fun f =>
          expectedConsoleLogs f.1 f.2) ≠ []) := by
  refine ⟨?_, mem_flaggedLineNumbers content, flaggedLineNumbers_increasing content,
    split_join _ content, split_no_sep _ content, ?_, ?_⟩
  · rw [scanContent_acc, scanContent_eq]
    rfl
  · rw [scanContent_eq, expectedConsoleLogs]
    have h3 : flaggedLineNumbers "a\nb\nconsole.log(x)\nc\n// console.log(y)".toList = [3] := by
      decide
    rw [h3]
    rfl
  · have hnil : ∀ a ∈ ([] : List Str), ¬ SkippedName a := fun a ha => by cases ha
    have hwalk : findConsoleLogs "ui-tests".toList (env.readdirSync st.cwd "ui-tests") =
        some ((visitedFiles "ui-tests".toList (env.readdirSync st.cwd "ui-tests")).flatMap
          fun f => scanContent f.1 f.2 []) :=
      findConsoleLogs_visits (env.readdirSync st.cwd "ui-tests") "ui-tests".toList [] hnil hroot
    have hfun : (fun f : Str × Str => scanContent f.1 f.2 []) =
        fun f => expectedConsoleLogs f.1 f.2 := by
      funext f
      exact scanContent_eq f.1 f.2
    rw [hfun] at hwalk
    unfold checkConsoleLogs
    rw [hwalk]
    generalize ((visitedFiles "ui-tests".toList (env.readdirSync st.cwd "ui-tests")).flatMap
      fun f => expectedConsoleLogs f.1 f.2) = found
    refine ⟨_, rfl, ?_, ?_⟩
    · rw [(check_quality _ _ _).1]
      cases found <;> simp
    · rw [(check_quality _ _ _).2]
      cases found <;> simp

set_option maxRecDepth 100000 in
theorem console_finder_reports_flagged_lines_witness :
    listable (sampleEnv.readdirSync "/work" "ui-tests") = true ∧
    scanContent "ui-tests/app.ts".toList "a\nb\nconsole.log(x)\nc\n// console.log(y)".toList [] =
      ["ui-tests/app.ts:3".toList] ∧
    ∃ st' : State,
      checkConsoleLogs sampleEnv { results := initialResults, cwd := "/work" } = some st' ∧
      st'.results.quality.failed = 1 :=
  have h := console_finder_reports_flagged_lines sampleEnv
    { results := initialResults, cwd := "/work" } "ui-tests/app.ts".toList
    "a\nb\nconsole.log(x)\nc\n// console.log(y)".toList [] (by decide)
  ⟨by decide, h.2.2.2.2.2.1, by
    obtain ⟨st', hst, -, hfail⟩ := h.2.2.2.2.2.2
    exact ⟨st', hst, hfail.2 (by decide)⟩⟩

/-! ## The hardcoded credential finder -/

theorem matchStar_iff (a : Atom) (k : Str → Bool) (s : Str) :
    matchStar a k s = true ↔
      ∃ cs rest, s = cs ++ rest ∧ (∀ c ∈ cs, a.accepts c = true) ∧ k rest = true := by
  induction s with
  | nil =>
    rw [matchStar]
    constructor
    · intro h
      exact ⟨[], [], rfl, (fun c hc => by cases hc), h⟩
    · rintro ⟨cs, rest, hs, -, hk⟩
      have hnil := List.append_eq_nil.1 hs.symm
      rw [hnil.2] at hk
      exact hk
  | cons c s ih =>
    rw [matchStar, Bool.or_eq_true, Bool.and_eq_true, ih]
    constructor
    · rintro (⟨hc, cs, rest, hs, hall, hk⟩ | hk)
      · refine ⟨c :: cs, rest, by rw [hs]; rfl, ?_, hk⟩
        intro d hd
        rw [List.mem_cons] at hd
        rcases hd with hd | hd
        · rw [hd]; exact hc
        · exact hall d hd
      · exact ⟨[], c :: s, rfl, (fun d hd => by cases hd), hk⟩
    · rintro ⟨cs, rest, hs, hall, hk⟩
      cases cs with
      | nil =>
        right
        rw [List.nil_append] at hs
        rw [hs]
        exact hk
      | cons d cs =>
        rw [List.cons_append, List.cons.injEq] at hs
        left
        refine ⟨?_, cs, rest, hs.2, fun e he => hall e (List.mem_cons_of_mem _ he), hk⟩
        rw [hs.1]
        exact hall d (List.mem_cons_self _ _)

theorem matchHere_iff (p : Pattern) (s : Str) :
    matchHere p s = true ↔ ∃ m rest, s = m ++ rest ∧ p.Accepts m := by
  induction p generalizing s with
  | nil =>
    simp only [matchHere, Pattern.Accepts, true_iff]
    exact ⟨[], s, rfl, rfl⟩
  | cons aq p ih =>
    obtain ⟨a, q⟩ := aq
    cases q with
    | once =>
      cases s with
      | nil =>
        simp only [matchHere, Pattern.Accepts, Bool.false_eq_true, false_iff]
        rintro ⟨m, rest, hs, c, m', hm, -⟩
        rw [hm] at hs
        cases hs
      | cons c s =>
        simp only [matchHere, Pattern.Accepts, Bool.and_eq_true, ih]
        constructor
        · rintro ⟨hc, m, rest, hs, hm⟩
          exact ⟨c :: m, rest, by rw [hs]; rfl, c, m, rfl, hc, hm⟩
        · rintro ⟨m, rest, hs, d, m', hm, hd, hacc⟩
          rw [hm, List.cons_append, List.cons.injEq] at hs
          rw [hs.1]
          exact ⟨hd, m', rest, hs.2, hacc⟩
    | optional =>
      cases s with
      | nil =>
        simp only [matchHere, Pattern.Accepts, Bool.false_or, ih]
        constructor
        · rintro ⟨m, rest, hs, hm⟩
          exact ⟨m, rest, hs, Or.inl hm⟩
        · rintro ⟨m, rest, hs, hm | ⟨c, m', hm, -⟩⟩
          · exact ⟨m, rest, hs, hm⟩
          · rw [hm] at hs
            cases hs
      | cons c s =>
        simp only [matchHere, Pattern.Accepts, Bool.or_eq_true, Bool.and_eq_true, ih]
        constructor
        · rintro (⟨hc, m, rest, hs, hm⟩ | ⟨m, rest, hs, hm⟩)
          · exact ⟨c :: m, rest, by rw [hs]; rfl, Or.inr ⟨c, m, rfl, hc, hm⟩⟩
          · exact ⟨m, rest, hs, Or.inl hm⟩
        · rintro ⟨m, rest, hs, hm | ⟨d, m', hm, hd, hacc⟩⟩
          · exact Or.inr ⟨m, rest, hs, hm⟩
          · rw [hm, List.cons_append, List.cons.injEq] at hs
            rw [hs.1]
            exact Or.inl ⟨hd, m', rest, hs.2, hacc⟩
    | star =>
      simp only [matchHere, Pattern.Accepts, matchStar_iff, ih]
      constructor
      · rintro ⟨cs, rest, hs, hall, m, rest', hr, hm⟩
        exact ⟨cs ++ m, rest', by rw [hs, hr, List.append_assoc], cs, m, rfl, hall, hm⟩
      · rintro ⟨m, rest, hs, cs, m', hm, hall, hacc⟩
        exact ⟨cs, m' ++ rest, by rw [hs, hm, List.append_assoc], hall, m', rest, rfl, hacc⟩
    | plus =>
      cases s with
      | nil =>
        simp only [matchHere, Pattern.Accepts, Bool.false_eq_true, false_iff]
        rintro ⟨m, rest, hs, c, cs, m', hm, -⟩
        rw [hm] at hs
        cases hs
      | cons c s =>
        simp only [matchHere, Pattern.Accepts, Bool.and_eq_true, matchStar_iff, ih]
        constructor
        · rintro ⟨hc, cs, rest, hs, hall, m, rest', hr, hm⟩
          exact ⟨c :: cs ++ m, rest', by rw [hs, hr]; simp, c, cs, m, rfl, hc, hall, hm⟩
        · rintro ⟨m, rest, hs, d, cs, m', hm, hd, hall, hacc⟩
          rw [hm, List.cons_append, List.cons_append, List.cons.injEq] at hs
          rw [hs.1]
          exact ⟨hd, cs, m' ++ rest, by rw [hs.2, List.append_assoc], hall, m', rest, rfl, hacc⟩

theorem test_iff (p : Pattern) (s : Str) :
    p.test s = true ↔ ∃ pre m post, s = pre ++ (m ++ post) ∧ p.Accepts m := by
  induction s with
  | nil =>
    rw [Pattern.test, matchHere_iff]
    constructor
    · rintro ⟨m, rest, hs, hm⟩
      exact ⟨[], m, rest, hs, hm⟩
    · rintro ⟨pre, m, post, hs, hm⟩
      have hnil := List.append_eq_nil.1 hs.symm
      exact ⟨m, post, hnil.2.symm, hm⟩
  | cons c s ih =>
    rw [Pattern.test, Bool.or_eq_true, matchHere_iff, ih]
    constructor
    · rintro (⟨m, rest, hs, hm⟩ | ⟨pre, m, post, hs, hm⟩)
      · exact ⟨[], m, rest, hs, hm⟩
      · exact ⟨c :: pre, m, post, by rw [hs]; rfl, hm⟩
    · rintro ⟨pre, m, post, hs, hm⟩
      cases pre with
      | nil => exact Or.inl ⟨m, post, hs, hm⟩
      | cons d pre =>
        rw [List.cons_append, List.cons.injEq] at hs
        exact Or.inr ⟨pre, m, post, hs.2, hm⟩

theorem accepts_append (p q : Pattern) (m : Str) :
    (p ++ q).Accepts m ↔ ∃ m1 m2, m = m1 ++ m2 ∧ p.Accepts m1 ∧ q.Accepts m2 := by
  induction p generalizing m with
  | nil =>
    simp only [List.nil_append, Pattern.Accepts]
    constructor
    · intro h
      exact ⟨[], m, rfl, rfl, h⟩
    · rintro ⟨m1, m2, hm, h1, h2⟩
      rw [hm, h1]
      exact h2
  | cons aq p ih =>
    obtain ⟨a, k⟩ := aq
    cases k with
    | once =>
      rw [List.cons_append]
      simp only [Pattern.Accepts, ih]
      constructor
      · rintro ⟨c, m', hm, hc, m1, m2, hm', h1, h2⟩
        exact ⟨c :: m1, m2, by rw [hm, hm']; rfl, ⟨c, m1, rfl, hc, h1⟩, h2⟩
      · rintro ⟨m1, m2, hm, ⟨c, m', hm1, hc, h1⟩, h2⟩
        exact ⟨c, m' ++ m2, by rw [hm, hm1]; rfl, hc, m', m2, rfl, h1, h2⟩
    | optional =>
      rw [List.cons_append]
      simp only [Pattern.Accepts, ih]
      constructor
      · rintro (⟨m1, m2, hm, h1, h2⟩ | ⟨c, m', hm, hc, m1, m2, hm', h1, h2⟩)
        · exact ⟨m1, m2, hm, Or.inl h1, h2⟩
        · exact ⟨c :: m1, m2, by rw [hm, hm']; rfl, Or.inr ⟨c, m1, rfl, hc, h1⟩, h2⟩
      · rintro ⟨m1, m2, hm, h1 | ⟨c, m', hm1, hc, h1⟩, h2⟩
        · exact Or.inl ⟨m1, m2, hm, h1, h2⟩
        · exact Or.inr ⟨c, m' ++ m2, by rw [hm, hm1]; rfl, hc, m', m2, rfl, h1, h2⟩
    | star =>
      rw [List.cons_append]
      simp only [Pattern.Accepts, ih]
      constructor
      · rintro ⟨cs, m', hm, hall, m1, m2, hm', h1, h2⟩
        exact ⟨cs ++ m1, m2, by rw [hm, hm', List.append_assoc], ⟨cs, m1, rfl, hall, h1⟩, h2⟩
      · rintro ⟨m1, m2, hm, ⟨cs, m', hm1, hall, h1⟩, h2⟩
        exact ⟨cs, m' ++ m2, by rw [hm, hm1, List.append_assoc], hall, m', m2, rfl, h1, h2⟩
    | plus =>
      rw [List.cons_append]
      simp only [Pattern.Accepts, ih]
      constructor
      · rintro ⟨c, cs, m', hm, hc, hall, m1, m2, hm', h1, h2⟩
        exact ⟨c :: cs ++ m1, m2, by rw [hm, hm']; simp, ⟨c, cs, m1, rfl, hc, hall, h1⟩, h2⟩
      · rintro ⟨m1, m2, hm, ⟨c, cs, m', hm1, hc, hall, h1⟩, h2⟩
        exact ⟨c, cs, m' ++ m2, by rw [hm, hm1]; simp, hc, hall, m', m2, rfl, h1, h2⟩

theorem accepts_oneOf (cs : List Char) (c : Char) :
    (Atom.oneOf cs).accepts c = true ↔ c ∈ cs := by
  simp [Atom.accepts, List.contains]

theorem accepts_noneOf (cs : List Char) (c : Char) :
    (Atom.noneOf cs).accepts c = true ↔ c ∉ cs := by
  simp [Atom.accepts, List.contains]

theorem accepts_exact (d c : Char) : (Atom.exact d).accepts c = true ↔ c = d := by
  simp [Atom.accepts]

theorem accepts_space (c : Char) : Atom.space.accepts c = true ↔ isWhiteSpace c = true := by
  simp [Atom.accepts]

theorem accepts_quotedAssignment (m : Str) :
    quotedAssignment.Accepts m ↔
      ∃ ws1 ws2 q1 body q2, m = ws1 ++ '=' :: (ws2 ++ q1 :: (body ++ [q2])) ∧
        (∀ c ∈ ws1, isWhiteSpace c = true) ∧ (∀ c ∈ ws2, isWhiteSpace c = true) ∧
        q1 ∈ quotes ∧ q2 ∈ quotes ∧ body ≠ [] ∧ ∀ c ∈ body, c ∉ quotes := by
  simp only [quotedAssignment, Pattern.Accepts, accepts_oneOf, accepts_noneOf, accepts_exact,
    accepts_space]
  constructor
  · rintro ⟨ws1, m1, hm, hws1, c, m2, hm1, hc, ws2, m3, hm2, hws2, q1, m4, hm3, hq1,
      b, bs, m5, hm4, hb, hbs, q2, m6, hm5, hq2, hm6⟩
    refine ⟨ws1, ws2, q1, b :: bs, q2, ?_, hws1, hws2, hq1, hq2, List.cons_ne_nil _ _, ?_⟩
    · rw [hm, hm1, hc, hm2, hm3, hm4, hm5, hm6]
    · intro d hd
      rw [List.mem_cons] at hd
      rcases hd with hd | hd
      · rw [hd]; exact hb
      · exact hbs d hd
  · rintro ⟨ws1, ws2, q1, body, q2, hm, hws1, hws2, hq1, hq2, hne, hbody⟩
    cases body with
    | nil => exact absurd rfl hne
    | cons b bs =>
      exact ⟨ws1, _, hm, hws1, '=', _, rfl, rfl, ws2, _, rfl, hws2, q1, _, rfl, hq1,
        b, bs, [q2], (by simp), hbody b (List.mem_cons_self _ _),
        (fun d hd => hbody d (List.mem_cons_of_mem _ hd)), q2, [], rfl, hq2, rfl⟩

theorem test_credential (keyword : Pattern) (content : Str) :
    (keyword ++ quotedAssignment).test content = true ↔ CredentialAssignment keyword content := by
  rw [test_iff]
  unfold CredentialAssignment
  constructor
  · rintro ⟨pre, m, post, hs, hm⟩
    rw [accepts_append] at hm
    obtain ⟨key, m2, hm12, hkey, hq⟩ := hm
    rw [accepts_quotedAssignment] at hq
    obtain ⟨ws1, ws2, q1, body, q2, hm2, h1, h2, h3, h4, h5, h6⟩ := hq
    refine ⟨pre, key, ws1, ws2, q1, body, q2, post, ?_, hkey, h1, h2, h3, h4, h5, h6⟩
    rw [hs, hm12, hm2]
    simp
  · rintro ⟨pre, key, ws1, ws2, q1, body, q2, post, hs, hkey, h1, h2, h3, h4, h5, h6⟩
    refine ⟨pre, key ++ (ws1 ++ '=' :: (ws2 ++ q1 :: (body ++ [q2]))), post, ?_, ?_⟩
    · rw [hs]
      simp
    · rw [accepts_append]
      refine ⟨key, _, rfl, hkey, ?_⟩
      rw [accepts_quotedAssignment]
      exact ⟨ws1, ws2, q1, body, q2, rfl, h1, h2, h3, h4, h5, h6⟩

theorem accepts_word (w : List Char) (key : Str) :
    Pattern.Accepts (w.map fun c => (Atom.letter c c.toUpper, Quantifier.once)) key ↔
      List.Forall₂ (fun k c => k = c ∨ k = c.toUpper) key w := by
  induction w generalizing key with
  | nil =>
    simp only [List.map_nil, Pattern.Accepts]
    constructor
    · intro h
      rw [h]
      exact List.Forall₂.nil
    · intro h
      cases h
      rfl
  | cons c w ih =>
    simp only [List.map_cons, Pattern.Accepts, Atom.accepts, Bool.or_eq_true, beq_iff_eq, ih]
    constructor
    · rintro ⟨k, m', hm, hk, hrest⟩
      rw [hm]
      exact List.Forall₂.cons hk hrest
    · intro h
      cases h with
      | cons hk hrest => exact ⟨_, _, rfl, hk, hrest⟩

theorem test_append_left (p : Pattern) (pre s : Str) (h : p.test s = true) :
    p.test (pre ++ s) = true := by
  induction pre with
  | nil => exact h
  | cons c pre ih =>
    rw [List.cons_append, Pattern.test, ih, Bool.or_true]

theorem password_literal_matches (pre post : Str) :
    passwordPattern.test (pre ++ "const password = \"abc123\"".toList ++ post) = true := by
  rw [List.append_assoc]
  apply test_append_left
  rfl

theorem matchingPatterns_eq (content : Str) :
    matchingPatterns content =
      (if passwordPattern.test content then 1 else 0) +
      (if apiKeyPattern.test content then 1 else 0) +
      (if tokenPattern.test content then 1 else 0) := by
  unfold matchingPatterns credPatterns
  cases h1 : passwordPattern.test content <;> cases h2 : apiKeyPattern.test content <;>
    cases h3 : tokenPattern.test content <;> simp [List.filter_cons, h1, h2, h3]

theorem count_creds_of_not_mem (path : Str) (files : List (Str × Str))
    (h : path ∉ files.map Prod.fst) :
    (files.flatMap fun f => scanCreds f.1 f.2 credPatterns []).count path = 0 := by
  induction files with
  | nil => rfl
  | cons f rest ih =>
    rw [List.map_cons, List.mem_cons, not_or] at h
    rw [List.flatMap_cons, List.count_append, ih h.2, scanCreds_eq, List.nil_append,
      List.count_replicate]
    have hne : ¬ (f.1 == path) = true := by
      rw [beq_iff_eq]
      exact fun heq => h.1 heq.symm
    simp [hne]

theorem count_creds_of_mem (path content : Str) (files : List (Str × Str))
    (hnodup : (files.map Prod.fst).Nodup) (hmem : (path, content) ∈ files) :
    (files.flatMap fun f => scanCreds f.1 f.2 credPatterns []).count path =
      matchingPatterns content := by
  induction files with
  | nil => cases hmem
  | cons f rest ih =>
    rw [List.map_cons, List.nodup_cons] at hnodup
    rw [List.flatMap_cons, List.count_append, scanCreds_eq, List.nil_append,
      List.count_replicate]
    rw [List.mem_cons] at hmem
    rcases hmem with hmem | hmem
    · subst hmem
      rw [count_creds_of_not_mem _ rest hnodup.1]
      simp [matchingPatterns]
    · have hin : path ∈ rest.map Prod.fst := List.mem_map.2 ⟨(path, content), hmem, rfl⟩
      have hne : ¬ (f.1 == path) = true := by
        rw [beq_iff_eq]
        intro heq
        rw [heq] at hnodup
        exact hnodup.1 hin
      rw [ih hnodup.2 hmem]
      simp [hne]

/-- C8: for a visited file with path `p` and content `c`, in a listable tree
whose visited paths are distinct, `p` occurs in the result of the credential
finder as many times as there are patterns among the three that match
somewhere in `c`: the finder appends `p` once per matching pattern, a content
containing `const password = "abc123"` is matched by the password pattern and
so returned at least once, a content matched by two patterns is recorded
twice, and a content matched by none is not returned.  A pattern matches
exactly when the content holds its keyword (`password`, `api[_-]?key` or
`token`, each letter in either case) followed by optional white space, `=`,
optional white space and a non-empty run of non-quote characters between two
quote characters. -/
theorem credential_finder_counts_matching_patterns (dir : Str) (root : Option (List Node))
    (path content : Str) (acc : List Str) (hroot : listable root = true)
    (hpaths : ((visitedFiles dir root).map Prod.fst).Nodup)
    (hvisited : (path, content) ∈ visitedFiles dir root) :
    (∃ found : List Str, findHardcodedCreds dir root = some found ∧
      found.count path = matchingPatterns content) ∧
    scanCreds path content credPatterns acc =
      acc ++ List.replicate (matchingPatterns content) path ∧
    matchingPatterns content =
      (if passwordPattern.test content then 1 else 0) +
      (if apiKeyPattern.test content then 1 else 0) +
      (if tokenPattern.test content then 1 else 0) ∧
    (∀ pre post : Str,
      passwordPattern.test (pre ++ "const password = \"abc123\"".toList ++ post) = true ∧
      path ∈ scanCreds path (pre ++ "const password = \"abc123\"".toList ++ post)
        credPatterns []) ∧
    (matchingPatterns content = 2 ↔ scanCreds path content credPatterns [] = [path, path]) ∧
    (matchingPatterns content = 0 ↔ scanCreds path content credPatterns [] = []) ∧
    (passwordPattern.test content = true ↔ CredentialAssignment (word "password") content) ∧
    (apiKeyPattern.test content = true ↔
      CredentialAssignment
        (word "api" ++ [(Atom.oneOf ['_', '-'], Quantifier.optional)] ++ word "key") content) ∧
    (tokenPattern.test content = true ↔ CredentialAssignment (word "token") content) ∧
    ∀ (w : String) (key : Str),
      (word w).Accepts key ↔ List.Forall₂ (fun k c => k = c ∨ k = c.toUpper) key w.toList := by
  have hnil : ∀ a ∈ ([] : List Str), ¬ SkippedName a := fun a ha => by cases ha
  have hrep : ∀ (c : Str) (a : List Str), scanCreds path c credPatterns a =
      a ++ List.replicate (matchingPatterns c) path := fun c a => scanCreds_eq path c _ a
  refine ⟨⟨_, findHardcodedCreds_visits root dir [] hnil hroot, ?_⟩, hrep content acc,
    matchingPatterns_eq content, ?_, ?_, ?_, test_credential _ content,
    test_credential _ content, test_credential _ content,
    fun w key => accepts_word w.toList key⟩
  · exact count_creds_of_mem path content _ hpaths hvisited
  · intro pre post
    refine ⟨password_literal_matches pre post, ?_⟩
    rw [hrep, List.nil_append, matchingPatterns_eq, password_literal_matches pre post]
    rw [if_pos rfl, Nat.add_assoc, Nat.add_comm, List.replicate_succ]
    exact List.mem_cons_self _ _
  · rw [hrep, List.nil_append]
    constructor
    · intro h
      rw [h]
      rfl
    · intro h
      have := congrArg List.length h
      simpa using this
  · rw [hrep, List.nil_append]
    constructor
    · intro h
      rw [h]
      rfl
    · intro h
      have := congrArg List.length h
      simpa using this

set_option maxRecDepth 100000 in
theorem credential_finder_counts_matching_patterns_witness :
    listable (some sampleTree) = true ∧
    ((visitedFiles "ui-tests".toList (some sampleTree)).map Prod.fst).Nodup ∧
    matchingPatterns "const password = \"abc123\"\nawait signIn(password)".toList = 1 ∧
    matchingPatterns "Password=\"a\"; API-KEY = \"b\"; tokens = \"c\"".toList = 2 ∧
    ∃ found : List Str,
      findHardcodedCreds "ui-tests".toList (some sampleTree) = some found ∧
      found.count "ui-tests/src/login.js".toList = 1 :=
  have h := credential_finder_counts_matching_patterns "ui-tests".toList (some sampleTree)
    "ui-tests/src/login.js".toList
    "const password = \"abc123\"\nawait signIn(password)".toList [] (by decide) (by decide)
    (by decide)
  ⟨by decide, by decide, by decide, by decide, by
    obtain ⟨found, hfound, hcount⟩ := h.1
    exact ⟨found, hfound, by rw [hcount]; decide⟩⟩

/-! ## The error handling tally -/

theorem classify_cases (content : Str) (tally : ErrorHandling) :
    classify content tally =
      if Good content then { tally with good := tally.good + 1 }
      else if NeedsImprovement content then
        { tally with needsImprovement := tally.needsImprovement + 1 }
      else tally := by
  rw [classify_eq [] content tally]
  by_cases hg : Good content
  · have hni : ¬ NeedsImprovement content := fun h => h.1 hg
    simp [tallyOf, ErrorHandling.add, hg, hni]
  · by_cases hni : NeedsImprovement content
    · simp [tallyOf, ErrorHandling.add, hg, hni]
    · simp [tallyOf, ErrorHandling.add, hg, hni]

theorem foldl_add_tally (tallies : List ErrorHandling) (a : ErrorHandling) :
    tallies.foldl ErrorHandling.add a =
      a.add (tallies.foldl ErrorHandling.add { good := 0, needsImprovement := 0 }) := by
  induction tallies generalizing a with
  | nil => rw [List.foldl_nil, List.foldl_nil, add_zero_tally]
  | cons t rest ih =>
    rw [List.foldl_cons, List.foldl_cons, ih, ih (ErrorHandling.add _ t), zero_add_tally,
      add_assoc_tally]

theorem tally_of_entry (dir : Str) (file : Node) (h : listableFile file = true) :
    tallyOf ((filesOf dir [] file).filterMap FileEntry.visit) = contribution dir file := by
  have hnil : ∀ a ∈ ([] : List Str), ¬ SkippedName a := fun a ha => by cases ha
  cases file with
  | file name content =>
    rw [filesOf, List.filterMap_cons, visit_file dir name [] content hnil]
    unfold contribution
    by_cases hext : hasSourceExtension name = true
    · have hs : SourceName name := (hasSourceExtension_iff name).1 hext
      cases content <;> simp [hext, hs, tallyOf_nil]
    · have hs : ¬ SourceName name := fun hs => hext ((hasSourceExtension_iff name).2 hs)
      simp [hext, hs, tallyOf_nil]
  | dir name entries =>
    rw [listableFile, Bool.or_eq_true, decide_eq_true_iff] at h
    rw [filesOf]
    unfold contribution
    simp only
    by_cases hskip : SkippedName name
    · rw [visit_beneath_skipped entries (pathJoin dir name) name [] hskip, if_pos hskip]
      rfl
    · rw [if_neg hskip, findErrorHandling_visits entries (pathJoin dir name) ([] ++ [name])
        (not_skipped_append [] name hnil hskip) (h.resolve_left hskip)]
      rfl

theorem tally_of_entries (dir : Str) (files : List Node) (h : listableEach files = true) :
    tallyOf ((filesAmong dir [] files).filterMap FileEntry.visit) =
      (files.map (contribution dir)).foldl ErrorHandling.add
        { good := 0, needsImprovement := 0 } := by
  induction files with
  | nil => rfl
  | cons file rest ih =>
    rw [listableEach, Bool.and_eq_true] at h
    rw [filesAmong, List.filterMap_append, tallyOf_append, tally_of_entry dir file h.1,
      ih h.2, List.map_cons, List.foldl_cons, zero_add_tally]
    exact (foldl_add_tally _ _).symm

set_option maxRecDepth 100000 in
/-- C9, counterexample: over the tree with the directory `locked`, which the
scan descends into and cannot list, the visited files hold one file that needs
improvement and none that is good, but `findErrorHandling` returns no tally
and the error handling check is not recorded. -/
theorem locked_directory_leaves_no_tally :
    tallyOf (visitedFiles "ui-tests".toList (some treeWithLockedDirectory)) =
      { good := 0, needsImprovement := 1 } ∧
    findErrorHandling "ui-tests".toList (some treeWithLockedDirectory) ≠
      some (tallyOf (visitedFiles "ui-tests".toList (some treeWithLockedDirectory))) ∧
    (findErrorHandling "ui-tests".toList (some treeWithLockedDirectory)).isNone = true ∧
    (checkErrorHandling
      { sampleEnv with readdirSync := fun _ _ => some treeWithLockedDirectory }
      { results := initialResults, cwd := "/work" }).isNone = true := by
  decide

/-- C9, amended: over a listable tree `findErrorHandling` returns the number of
visited files whose content contains both `try` and `catch` as `good` and
the number of visited files that are not good and contain `await` or
`Promise` as `needsImprovement`; each file adds one to `good`, or one to
`needsImprovement`, or nothing, never to both; the tally of a directory is
the sum of what its entries contribute, a skipped directory contributing
nothing and any other directory the tally of its own scan; and the error
handling check is recorded as passed exactly when `needsImprovement` is 0. -/
theorem error_handling_tally_counts_visited_files (env : Env) (st : State) (dir : Str)
    (files : List Node) (content : Str) (tally : ErrorHandling)
    (hfiles : listable (some files) = true)
    (hroot : listable (env.readdirSync st.cwd "ui-tests") = true) :
    findErrorHandling dir (some files) =
      some { good := ((visitedFiles dir (some files)).filter fun f =>
               decide ("try".toList <:+: f.2 ∧ "catch".toList <:+: f.2)).length
             needsImprovement := ((visitedFiles dir (some files)).filter fun f =>
               decide (¬ ("try".toList <:+: f.2 ∧ "catch".toList <:+: f.2) ∧
                 ("await".toList <:+: f.2 ∨ "Promise".toList <:+: f.2))).length } ∧
    classify content tally =
      (if Good content then { tally with good := tally.good + 1 }
       else if NeedsImprovement content then
         { tally with needsImprovement := tally.needsImprovement + 1 }
       else tally) ∧
    ¬ (Good content ∧ NeedsImprovement content) ∧
    findErrorHandling dir (some files) =
      some ((files.map (contribution dir)).foldl ErrorHandling.add
        { good := 0, needsImprovement := 0 }) ∧
    ∃ st' : State, checkErrorHandling env st = some st' ∧
      (st'.results.quality.passed = st.results.quality.passed + 1 ↔
        (tallyOf (visitedFiles "ui-tests".toList
          (env.readdirSync st.cwd "ui-tests"))).needsImprovement = 0) ∧
      (st'.results.quality.failed = st.results.quality.failed + 1 ↔
        (tallyOf (visitedFiles "ui-tests".toList
          (env.readdirSync st.cwd "ui-tests"))).needsImprovement ≠ 0) := by
  have hnil : ∀ a ∈ ([] : List Str), ¬ SkippedName a := fun a ha => by cases ha
  have hwalk : findErrorHandling dir (some files) =
      some (tallyOf (visitedFiles dir (some files))) :=
    findErrorHandling_visits (some files) dir [] hnil hfiles
  refine ⟨hwalk, classify_cases content tally, fun h => h.2.1 h.1, ?_, ?_⟩
  · rw [hwalk]
    rw [listable] at hfiles
    exact congrArg some (tally_of_entries dir files hfiles)
  · have hscan : findErrorHandling "ui-tests".toList (env.readdirSync st.cwd "ui-tests") =
        some (tallyOf (visitedFiles "ui-tests".toList (env.readdirSync st.cwd "ui-tests"))) :=
      findErrorHandling_visits (env.readdirSync st.cwd "ui-tests") "ui-tests".toList [] hnil hroot
    unfold checkErrorHandling
    rw [hscan]
    refine ⟨_, rfl, ?_, ?_⟩
    · rw [(check_quality _ _ _).1]
      simp
    · rw [(check_quality _ _ _).2]
      simp

set_option maxRecDepth 100000 in
theorem error_handling_tally_counts_visited_files_witness :
    listable (some sampleTree) = true ∧
    listable (sampleEnv.readdirSync "/work" "ui-tests") = true ∧
    findErrorHandling "ui-tests".toList (some sampleTree) =
      some { good := 1, needsImprovement := 1 } ∧
    ∃ st' : State,
      checkErrorHandling sampleEnv { results := initialResults, cwd := "/work" } = some st' ∧
      st'.results.quality.failed = 1 :=
  have h := error_handling_tally_counts_visited_files sampleEnv
    { results := initialResults, cwd := "/work" } "ui-tests".toList sampleTree
    "try\n  await run()\ncatch (e)".toList { good := 0, needsImprovement := 0 }
    (by decide) (by decide)
  ⟨by decide, by decide, by rw [h.1]; decide, by
    obtain ⟨st', hst, -, hfail⟩ := h.2.2.2.2
    exact ⟨st', hst, hfail.2 (by decide)⟩⟩

/-! ## Phases that stop the run -/

set_option maxRecDepth 100000 in
/-- C5, at the failing inputs: started where `ui-tests` does not exist, `main`
runs the pre-flight and test phases, the error of the quality scan escapes
`validateCodeQuality`, and neither `validateReports` nor `generateSummary`
runs, so no verdict is computed and the exit code is 1; with
`ui-tests/playwright-report` present but not listable the error escapes
`validateReports` and `generateSummary` does not run. -/
theorem missing_scan_root_stops_the_run :
    envWithoutUiTests.existsSync "/work" "ui-tests" = false ∧
    main envWithoutUiTests "/work" = RunResult.caught Phase.validateCodeQuality ∧
    (main envWithoutUiTests "/work").phasesRun =
      [Phase.validatePreflight, Phase.validateTests, Phase.validateCodeQuality] ∧
    (main envWithoutUiTests "/work").verdict = none ∧
    (main envWithoutUiTests "/work").exitCode = 1 ∧
    envUnlistableReport.existsSync "/work" "ui-tests/playwright-report" = true ∧
    (envUnlistableReport.readdirSync "/work" "ui-tests/playwright-report").isNone = true ∧
    main envUnlistableReport "/work" = RunResult.caught Phase.validateReports ∧
    (main envUnlistableReport "/work").phasesRun =
      [Phase.validatePreflight, Phase.validateTests, Phase.validateCodeQuality,
       Phase.validateReports] ∧
    (main envUnlistableReport "/work").verdict = none := by
  have h1 : main envWithoutUiTests "/work" = RunResult.caught Phase.validateCodeQuality := by
    decide
  have h2 : main envUnlistableReport "/work" = RunResult.caught Phase.validateReports := by
    decide
  rw [h1, h2]
  decide

theorem checkConsoleLogs_of_listable (env : Env) (st : State)
    (hscan : listable (env.readdirSync st.cwd "ui-tests") = true) :
    ∃ st' : State, checkConsoleLogs env st = some st' ∧ st'.cwd = st.cwd := by
  have hnil : ∀ a ∈ ([] : List Str), ¬ SkippedName a := fun a ha => by cases ha
  unfold checkConsoleLogs
  rw [findConsoleLogs_visits _ "ui-tests".toList [] hnil hscan]
  exact ⟨_, rfl, rfl⟩

theorem checkHardcodedCreds_of_listable (env : Env) (st : State)
    (hscan : listable (env.readdirSync st.cwd "ui-tests") = true) :
    ∃ st' : State, checkHardcodedCreds env st = some st' ∧ st'.cwd = st.cwd := by
  have hnil : ∀ a ∈ ([] : List Str), ¬ SkippedName a := fun a ha => by cases ha
  unfold checkHardcodedCreds
  rw [findHardcodedCreds_visits _ "ui-tests".toList [] hnil hscan]
  exact ⟨_, rfl, rfl⟩

theorem checkErrorHandling_of_listable (env : Env) (st : State)
    (hscan : listable (env.readdirSync st.cwd "ui-tests") = true) :
    ∃ st' : State, checkErrorHandling env st = some st' ∧ st'.cwd = st.cwd := by
  have hnil : ∀ a ∈ ([] : List Str), ¬ SkippedName a := fun a ha => by cases ha
  unfold checkErrorHandling
  rw [findErrorHandling_visits _ "ui-tests".toList [] hnil hscan]
  exact ⟨_, rfl, rfl⟩

theorem validateCodeQuality_of_listable (env : Env) (st : State)
    (hscan : listable (env.readdirSync st.cwd "ui-tests") = true) :
    ∃ st' : State, validateCodeQuality env st = some st' ∧ st'.cwd = st.cwd := by
  obtain ⟨s1, h1, c1⟩ := checkConsoleLogs_of_listable env st hscan
  obtain ⟨s2, h2, c2⟩ := checkHardcodedCreds_of_listable env s1 (by rw [c1]; exact hscan)
  obtain ⟨s3, h3, c3⟩ := checkErrorHandling_of_listable env s2 (by rw [c2, c1]; exact hscan)
  refine ⟨s3, ?_, by rw [c3, c2, c1]⟩
  unfold validateCodeQuality
  rw [h1]
  simp only [Option.bind_some, Option.some_bind]
  rw [h2]
  simp only [Option.bind_some, Option.some_bind]
  exact h3

theorem validateReports_of_listable (env : Env) (st : State)
    (hreport : env.readdirSync st.cwd "ui-tests/playwright-report" ≠ none) :
    ∃ st' : State, validateReports env st = some st' := by
  unfold validateReports
  cases hlist : env.readdirSync st.cwd "ui-tests/playwright-report" with
  | none => exact absurd hlist hreport
  | some reportFiles =>
    simp only
    split_ifs
    · exact ⟨_, rfl⟩
    · exact ⟨_, rfl⟩

theorem main_summarises_of_listable (env : Env) (cwd : String)
    (hscan : ∀ dir : String, listable (env.readdirSync dir "ui-tests") = true)
    (hreport : ∀ dir : String, env.readdirSync dir "ui-tests/playwright-report" ≠ none) :
    (main env cwd).phasesRun =
      [Phase.validatePreflight, Phase.validateTests, Phase.validateCodeQuality,
       Phase.validateReports, Phase.generateSummary] := by
  obtain ⟨st', hq, -⟩ := validateCodeQuality_of_listable env
    (validateTests env (validatePreflight env { results := initialResults, cwd := cwd }))
    (hscan _)
  obtain ⟨st'', hr⟩ := validateReports_of_listable env st' (hreport _)
  simp only [main, hq, hr]
  rfl

/-! ## The working directory across the test phase -/

theorem validateUiTests_cwd (env : Env) (st : State)
    (hback : ∀ inside : String, env.chdir st.cwd "ui-tests" = Except.ok inside →
      env.chdir inside ".." = Except.ok st.cwd) :
    (validateUiTests env st).cwd = st.cwd := by
  unfold validateUiTests
  split_ifs
  · cases hin : env.chdir st.cwd "ui-tests" with
    | error message => rfl
    | ok inside =>
      simp only
      rw [hback inside hin]
  · rfl

theorem validateApiTests_cwd (env : Env) (st : State)
    (hback : ∀ inside : String, env.chdir st.cwd "api-tests" = Except.ok inside →
      env.chdir inside ".." = Except.ok st.cwd) :
    (validateApiTests env st).cwd = st.cwd := by
  unfold validateApiTests
  split_ifs
  · cases hin : env.chdir st.cwd "api-tests" with
    | error message => rfl
    | ok inside =>
      simp only
      rw [hback inside hin]
  · rfl

set_option maxRecDepth 100000 in
/-- C10, counterexample: with `ui-tests` a symbolic link, every command
succeeding, `validateTests` started in `/work` returns in `/srv/suites`; and
when `process.chdir('..')` throws after the UI commands ran, it returns in
`/work/ui-tests`. -/
theorem changed_directory_leaks :
    (validateTests envLinkedUiTests { results := initialResults, cwd := "/work" }).cwd =
      "/srv/suites" ∧
    (validateTests envLinkedUiTests { results := initialResults, cwd := "/work" }).cwd ≠
      "/work" ∧
    (validateTests envChdirBackThrows { results := initialResults, cwd := "/work" }).cwd =
      "/work/ui-tests" ∧
    (validateTests envChdirBackThrows { results := initialResults, cwd := "/work" }).cwd ≠
      "/work" := by
  decide

/-- C10, amended: for every outcome of the external commands, if each
`process.chdir` into one of the two suite directories that succeeds is undone
by `process.chdir('..')` (it succeeds and leads back to the directory the
suite was entered from), the working directory after `validateTests` equals
the one before; a `process.chdir` into a suite that throws leaves the
directory unchanged. -/
theorem validateTests_restores_cwd (env : Env) (st : State)
    (hui : ∀ inside : String, env.chdir st.cwd "ui-tests" = Except.ok inside →
      env.chdir inside ".." = Except.ok st.cwd)
    (hapi : ∀ inside : String, env.chdir st.cwd "api-tests" = Except.ok inside →
      env.chdir inside ".." = Except.ok st.cwd) :
    (validateTests env st).cwd = st.cwd := by
  have hcwd : (validateUiTests env st).cwd = st.cwd := validateUiTests_cwd env st hui
  unfold validateTests
  rw [validateApiTests_cwd env (validateUiTests env st), hcwd]
  intro inside hin
  rw [hcwd] at hin ⊢
  exact hapi inside hin

theorem sample_chdir_back (suite inside : String)
    (hsuite : suite = "ui-tests" ∨ suite = "api-tests")
    (h : sampleEnv.chdir "/work" suite = Except.ok inside) :
    sampleEnv.chdir inside ".." = Except.ok "/work" := by
  rcases hsuite with hs | hs
  · subst hs
    have h0 : sampleEnv.chdir "/work" "ui-tests" = Except.ok "/work/ui-tests" := rfl
    rw [h0] at h
    injection h with h
    subst h
    rfl
  · subst hs
    have h0 : sampleEnv.chdir "/work" "api-tests" = Except.ok "/work/api-tests" := rfl
    rw [h0] at h
    injection h with h
    subst h
    rfl

set_option maxRecDepth 100000 in
theorem validateTests_restores_cwd_witness :
    (∀ inside : String, sampleEnv.chdir "/work" "ui-tests" = Except.ok inside →
      sampleEnv.chdir inside ".." = Except.ok "/work") ∧
    (∀ inside : String, sampleEnv.chdir "/work" "api-tests" = Except.ok inside →
      sampleEnv.chdir inside ".." = Except.ok "/work") ∧
    sampleEnv.chdir "/work" ".." = Except.ok "/" ∧
    (validateTests sampleEnv { results := initialResults, cwd := "/work" }).cwd = "/work" ∧
    (validateTests sampleEnv { results := initialResults, cwd := "/work" }).results.tests.passed
      = 4 :=
  ⟨fun inside h => sample_chdir_back "ui-tests" inside (Or.inl rfl) h,
    fun inside h => sample_chdir_back "api-tests" inside (Or.inr rfl) h,
    rfl,
    validateTests_restores_cwd sampleEnv { results := initialResults, cwd := "/work" }
      (fun inside h => sample_chdir_back "ui-tests" inside (Or.inl rfl) h)
      (fun inside h => sample_chdir_back "api-tests" inside (Or.inr rfl) h),
    by decide⟩
theorem total_check (condition : Bool) (message : String) (category : Category) (r : Results) :
    totalPassed (check condition message category r) +
      totalFailed (check condition message category r) =
      totalPassed r + totalFailed r + 1 := by
  rw [totalPassed_eq, totalFailed_eq, totalPassed_eq, totalFailed_eq]
  cases category <;> cases condition <;> simp [check, Results.get, Results.set] <;> omega

theorem total_validatePreflight (env : Env) (st : State) :
    totalPassed st.results + totalFailed st.results <
      totalPassed (validatePreflight env st).results +
        totalFailed (validatePreflight env st).results := by
  have hnode : totalPassed st.results + totalFailed st.results ≤
      totalPassed (checkNodeVersion env st).results +
        totalFailed (checkNodeVersion env st).results := by
    unfold checkNodeVersion
    split
    · simp only [total_check]; omega
    · simp only [total_check]; omega
  have hdeps : ∀ s : State, totalPassed s.results + totalFailed s.results ≤
      totalPassed (checkUiDependencies env s).results +
        totalFailed (checkUiDependencies env s).results := by
    intro s
    unfold checkUiDependencies
    split_ifs
    · split
      · simp only [total_check]; omega
      · simp only [total_check]; omega
    · exact Nat.le_refl _
  unfold validatePreflight
  simp only [total_check]
  have h2 := hdeps { checkNodeVersion env st with
    results := check (env.existsSync (checkNodeVersion env st).cwd "ui-tests" &&
        env.existsSync (checkNodeVersion env st).cwd "api-tests")
      "Project structure detected (ui-tests, api-tests)" Category.preflight
      (checkNodeVersion env st).results }
  simp only [total_check] at h2
  split_ifs <;> (try simp only [total_check]) <;> omega

theorem total_validateUiTests (env : Env) (st : State) :
    totalPassed st.results + totalFailed st.results ≤
      totalPassed (validateUiTests env st).results +
        totalFailed (validateUiTests env st).results := by
  have hrec : ∀ (t : CommandResult) (r : Results), totalPassed r + totalFailed r ≤
      totalPassed (recordUiTestResult env t r) + totalFailed (recordUiTestResult env t r) := by
    intro t r
    unfold recordUiTestResult
    split
    · split
      · simp only [total_check]; omega
      · simp only [total_check]; omega
    · simp only [total_check]; omega
  unfold validateUiTests
  split_ifs
  · split
    · simp only [total_check]; omega
    · have h := hrec (runCommand env "npx playwright test --reporter=json" ‹String›)
        (check (!(runCommand env "npm ci" ‹String›).error)
          "UI dependencies installed successfully" Category.tests st.results)
      simp only [total_check] at h
      split
      · simp only; omega
      · simp only [total_check]; omega
  · simp only [total_check]; omega

theorem total_validateApiTests (env : Env) (st : State) :
    totalPassed st.results + totalFailed st.results ≤
      totalPassed (validateApiTests env st).results +
        totalFailed (validateApiTests env st).results := by
  unfold validateApiTests
  split_ifs
  · split
    · simp only [total_check]; omega
    · split <;> simp only [] <;> split_ifs <;> simp only [total_check] <;> omega
  · simp only [total_check]; omega

theorem total_validateCodeQuality (env : Env) (st st' : State)
    (h : validateCodeQuality env st = some st') :
    totalPassed st.results + totalFailed st.results ≤
      totalPassed st'.results + totalFailed st'.results := by
  unfold validateCodeQuality at h
  cases h1 : checkConsoleLogs env st with
  | none => rw [h1] at h; cases h
  | some s1 =>
    rw [h1] at h
    simp only [Option.bind_some, Option.some_bind] at h
    cases h2 : checkHardcodedCreds env s1 with
    | none => rw [h2] at h; cases h
    | some s2 =>
      rw [h2] at h
      simp only [Option.bind_some, Option.some_bind] at h
      unfold checkConsoleLogs at h1
      unfold checkHardcodedCreds at h2
      unfold checkErrorHandling at h
      split at h1
      · cases h1
      · split at h2
        · cases h2
        · split at h
          · cases h
          · simp only [Option.some.injEq] at h1 h2 h
            subst h1 h2 h
            simp only [total_check]
            omega

theorem total_validateReports (env : Env) (st st' : State)
    (h : validateReports env st = some st') :
    totalPassed st.results + totalFailed st.results ≤
      totalPassed st'.results + totalFailed st'.results := by
  unfold validateReports at h
  simp only at h
  split_ifs at h
  · split at h
    · cases h
    · simp only [Option.some.injEq] at h
      subst h
      simp only [total_check]
      omega
  · simp only [Option.some.injEq] at h
    subst h
    simp only [total_check]
    omega

theorem main_summary_has_checks (env : Env) (cwd : String) (st : State) (summary : Summary)
    (h : main env cwd = RunResult.summarised st summary) :
    0 < summary.totalChecks ∧
    summary.successRate = SuccessRate.fixed1 summary.totalPassed summary.totalChecks := by
  have hpos : 0 < totalPassed st.results + totalFailed st.results := by
    simp only [main] at h
    have h1 := total_validatePreflight env { results := initialResults, cwd := cwd }
    have h2 := total_validateUiTests env
      (validatePreflight env { results := initialResults, cwd := cwd })
    have h3 := total_validateApiTests env
      (validateUiTests env (validatePreflight env { results := initialResults, cwd := cwd }))
    cases hq : validateCodeQuality env
        (validateTests env (validatePreflight env { results := initialResults, cwd := cwd })) with
    | none => rw [hq] at h; cases h
    | some s3 =>
      rw [hq] at h
      simp only at h
      have h4 := total_validateCodeQuality env _ s3 hq
      cases hr : validateReports env s3 with
      | none => rw [hr] at h; cases h
      | some s4 =>
        rw [hr] at h
        simp only [RunResult.summarised.injEq] at h
        have h5 := total_validateReports env s3 s4 hr
        rw [← h.1]
        unfold validateTests at h4
        omega
  have hsum : summary = generateSummary st.results := by
    rcases main_cases env cwd with ⟨st2, h2⟩ | h2 | h2
    · rw [h2] at h
      simp only [RunResult.summarised.injEq] at h
      rw [← h.2, h.1]
    · rw [h2] at h; cases h
    · rw [h2] at h; cases h
  subst hsum
  refine ⟨hpos, ?_⟩
  simp only [generateSummary, successRateOf]
  rw [if_neg (Nat.pos_iff_ne_zero.1 hpos)]

end ValidateProject
